import Mathlib

/-! SimpleVector (simple-vector/simple_vector.h)

A shallow embedding of the growable array `SimpleVector<Type>` and of the
properties its specification states.

Conventions of the embedding.

* The heap block owned by `ArrayPtr<Type>` is the list of its slots; the
  length of the list is the allocated length of the block.
* `size_t` values are natural numbers.  The `size_t` expressions the container
  computes are `size_ + 1`, `size_ - 1` (under `size_ > 0`) and `2 * size_`;
  `size_` never exceeds an allocated length and a block of `2^63` slots cannot
  be allocated, so none of them wraps at 64 bits.  The `int` that `Insert`
  stores an iterator distance in is 32 bits wide (LP64) and is narrowed
  explicitly (`narrow_int`).
* An iterator into the array is its offset from `begin()`.
* Every operation returns `Except Fault _`: `Fault.overrun` is a raw access
  outside the allocated block and `Fault.dangling` a read through a reference
  into a block that has been released (both undefined behaviour in the
  source), `Fault.assertion` a failed `assert`, `Fault.out_of_range` the
  exception thrown by `At`.  Allocation never fails.
* A parameter of type `const Type&` or `Type&&` is a `Ref`: it refers either to
  an object outside the array or to a slot of the array's own block, and it is
  read where the source reads it.
* A `for`/`while` loop is a recursion on its trip count.
-/

/-- How an operation can end other than by returning normally. -/
inductive Fault where
  | out_of_range
  | assertion
  | overrun
  | dangling
  deriving DecidableEq

deriving instance DecidableEq for Except

namespace ArrayPtr

/-- Modelled from the spec: `ArrayPtr<Type>(length)` of array_ptr.h, which is not
among the sources ("Construct(length): allocates `length` default-valued
elements").  The same list stands for `new Type[length]`. -/
def alloc {α : Type} [Inhabited α] (length : Nat) : List α :=
  List.replicate length default

/-- Modelled from the spec: `ArrayPtr::operator[]` of array_ptr.h, read side
("Access(index): caller guarantees `index` is within the block's allocated
length; no bounds check here").  An index outside the block is a fault. -/
def read {α : Type} (block : List α) (index : Nat) : Except Fault α :=
  match block[index]? with
  | some x => .ok x
  | none => .error .overrun

/-- Modelled from the spec: `ArrayPtr::operator[]` of array_ptr.h, write side
(assignment through the returned reference). -/
def write {α : Type} (block : List α) (index : Nat) (x : α) : Except Fault (List α) :=
  if index < block.length then .ok (block.set index x) else .error .overrun

/-- Modelled from the spec: the address `&elements_[index]`, kept as the offset
`index`; an address may point one past the last slot but no further. -/
def addr {α : Type} (block : List α) (index : Nat) : Except Fault Nat :=
  if index ≤ block.length then .ok index else .error .overrun

end ArrayPtr

/-- What a parameter of type `const Type&` or `Type&&` refers to: `outside x` is
an object holding `x` that is no slot of the array's block (a temporary, a
variable of the caller); `element index` is the slot `index` of the block the
array owns when the call is made, as in `v.PushBack(v[0])`. -/
inductive Ref (α : Type) where
  | outside (x : α)
  | element (index : Nat)
  deriving DecidableEq

namespace Ref

/-- Reading through the reference, given the block the array owns now;
`released` says whether the block it owned when the call was made has been
released since.  A slot of a released block cannot be read. -/
def read {α : Type} (r : Ref α) (released : Bool) (block : List α) : Except Fault α :=
  match r with
  | .outside x => .ok x
  | .element index => if released then .error .dangling else ArrayPtr.read block index

/-- The block once the value `x` has been moved out through the reference
(`std::move(r)` as the right-hand side of an assignment): a slot referred to is
left in the moved-from state `mv x`; an object outside the array is no part of
the block. -/
def moved_out {α : Type} (r : Ref α) (mv : α → α) (x : α) (block : List α) : List α :=
  match r with
  | .outside _ => block
  | .element index => block.set index (mv x)

end Ref

/-- The fields of `SimpleVector<Type>`: the owned block, `size_`, `capacity_`. -/
structure SimpleVector (α : Type) where
  elements_ : List α
  size_ : Nat
  capacity_ : Nat
  deriving DecidableEq

namespace SimpleVector

variable {α : Type}

/-- The live sequence: the elements at the indices below `size_`. -/
def live (v : SimpleVector α) : List α :=
  v.elements_.take v.size_

/-- The data-model invariant: `size ≤ capacity = allocated length`. -/
def WellFormed (v : SimpleVector α) : Prop :=
  v.size_ ≤ v.capacity_ ∧ v.capacity_ = v.elements_.length

instance (v : SimpleVector α) : Decidable (WellFormed v) := by
  unfold WellFormed; infer_instance

/-- The loop `for (size_t it = from; it != to; it++) block[it] = Type();`
with `trips = to - from`. -/
def fill_default [Inhabited α] (block : List α) (it : Nat) : Nat → Except Fault (List α)
  | 0 => .ok block
  | trips + 1 => do
      let b ← ArrayPtr.write block it default
      fill_default b (it + 1) trips

/-- The loop `for (size_t i = from; i < to; i++) dst[i] = src[i];` with
`trips = to - from` (in `Resize` the right-hand side is `std::move(src[i])`;
the source block is released right after). -/
def copy_elements (src dst : List α) (i : Nat) : Nat → Except Fault (List α)
  | 0 => .ok dst
  | trips + 1 => do
      let x ← ArrayPtr.read src i
      let d ← ArrayPtr.write dst i x
      copy_elements src d (i + 1) trips

/-- `SimpleVector()`. -/
def empty : SimpleVector α :=
  { elements_ := [], size_ := 0, capacity_ := 0 }

/-- `SimpleVector(std::initializer_list<Type> init)`. -/
def from_init [Inhabited α] (init : List α) : Except Fault (SimpleVector α) := do
  let b ← copy_elements init (ArrayPtr.alloc init.length) 0 init.length
  .ok { elements_ := b, size_ := init.length, capacity_ := init.length }

/-- `void Resize(size_t new_size)`. -/
def Resize [Inhabited α] (v : SimpleVector α) (new_size : Nat) : Except Fault (SimpleVector α) :=
  if new_size = v.size_ then .ok v
  else if new_size < v.size_ then .ok { v with size_ := new_size }
  else if new_size ≤ v.capacity_ then do
    let b ← fill_default v.elements_ v.size_ (new_size - v.size_)
    .ok { v with elements_ := b, size_ := new_size }
  else do
    let new_capacity := max new_size (2 * v.size_)
    let new_array : List α := ArrayPtr.alloc new_capacity
    let moved ← copy_elements v.elements_ new_array 0 v.size_
    let filled ← fill_default moved v.size_ (new_size - v.size_)
    .ok { elements_ := filled, size_ := new_size, capacity_ := new_capacity }

/-- Whether `Resize(new_size)` replaces the block: the call reaches
`elements_.swap(tmp)` exactly when none of its three early returns is taken, and
the block owned before the call is released when `tmp` goes out of scope. -/
def Resize_releases (v : SimpleVector α) (new_size : Nat) : Bool :=
  decide (¬ new_size = v.size_ ∧ ¬ new_size < v.size_ ∧ ¬ new_size ≤ v.capacity_)

/-- `void PushBack(const Type& item)`: `item` is read after `Resize` has run. -/
def PushBack [Inhabited α] (v : SimpleVector α) (item : Ref α) :
    Except Fault (SimpleVector α) := do
  let v1 ← Resize v (v.size_ + 1)
  let x ← item.read (Resize_releases v (v.size_ + 1)) v1.elements_
  let b ← ArrayPtr.write v1.elements_ (v1.size_ - 1) x
  .ok { v1 with elements_ := b }

/-- `void PushBack(Type&& item)`: as above, and the object `item` refers to is
left in the moved-from state. -/
def PushBackMove [Inhabited α] (mv : α → α) (v : SimpleVector α) (item : Ref α) :
    Except Fault (SimpleVector α) := do
  let v1 ← Resize v (v.size_ + 1)
  let x ← item.read (Resize_releases v (v.size_ + 1)) v1.elements_
  let b ← ArrayPtr.write (item.moved_out mv x v1.elements_) (v1.size_ - 1) x
  .ok { v1 with elements_ := b }

/-- `void PopBack()`. -/
def PopBack (v : SimpleVector α) : Except Fault (SimpleVector α) :=
  if v.size_ ≠ 0 then .ok { v with size_ := v.size_ - 1 } else .error .assertion

/-- `Type& At(size_t index)` and its const overload: the outcome of the call
together with the array after it (the body assigns no field and no slot). -/
def At (v : SimpleVector α) (index : Nat) : Except Fault α × SimpleVector α :=
  if index ≥ v.size_ then (.error .out_of_range, v)
  else (ArrayPtr.read v.elements_ index, v)

/-- `void Clear()`. -/
def Clear (v : SimpleVector α) : SimpleVector α :=
  { v with size_ := 0 }

/-- `void Reserve(size_t new_capacity)`. -/
def Reserve [Inhabited α] (v : SimpleVector α) (new_capacity : Nat) : Except Fault (SimpleVector α) :=
  if new_capacity ≤ v.capacity_ then .ok v
  else do
    let new_array : List α := ArrayPtr.alloc new_capacity
    let copied ← copy_elements v.elements_ new_array 0 v.size_
    .ok { v with elements_ := copied, capacity_ := new_capacity }

/-- The conversion of an iterator distance to `int`, as in
`int n = std::distance(cbegin(), pos);`: 32 bits, two's complement. -/
def narrow_int (distance : Nat) : Int :=
  if distance % 2 ^ 32 < 2 ^ 31 then ((distance % 2 ^ 32 : Nat) : Int)
  else ((distance % 2 ^ 32 : Nat) : Int) - 2 ^ 32

/-- The slot an `int n` names in `elements_[n]`: a negative `n` names no slot
of the block. -/
def int_index (n : Int) : Except Fault Nat :=
  if 0 ≤ n then .ok n.toNat else .error .overrun

/-- The loop of `std::copy_backward(first, last, d_last)` inside one block,
`while (first != last) *(--d_last) = *(--last);`, with `trips = last - first`. -/
def copy_backward_loop (block : List α) (last d_last : Nat) : Nat → Except Fault (List α)
  | 0 => .ok block
  | trips + 1 =>
      if last = 0 ∨ d_last = 0 then .error .overrun
      else do
        let x ← ArrayPtr.read block (last - 1)
        let b ← ArrayPtr.write block (d_last - 1) x
        copy_backward_loop b (last - 1) (d_last - 1) trips

/-- `std::copy_backward(first, last, d_last)` inside one block. -/
def copy_backward (block : List α) (first last d_last : Nat) : Except Fault (List α) :=
  if first ≤ last then copy_backward_loop block last d_last (last - first)
  else .error .overrun

/-- The loop of `std::copy_backward` over move iterators: each assignment
leaves its source slot in the moved-from state `mv x`. -/
def move_backward_loop (mv : α → α) (block : List α) (last d_last : Nat) :
    Nat → Except Fault (List α)
  | 0 => .ok block
  | trips + 1 =>
      if last = 0 ∨ d_last = 0 then .error .overrun
      else do
        let x ← ArrayPtr.read block (last - 1)
        let b0 ← ArrayPtr.write block (last - 1) (mv x)
        let b ← ArrayPtr.write b0 (d_last - 1) x
        move_backward_loop mv b (last - 1) (d_last - 1) trips

/-- `std::copy_backward(std::make_move_iterator(first),
std::make_move_iterator(last), d_last)` inside one block. -/
def move_backward (mv : α → α) (block : List α) (first last d_last : Nat) :
    Except Fault (List α) :=
  if first ≤ last then move_backward_loop mv block last d_last (last - first)
  else .error .overrun

/-- `Iterator Insert(ConstIterator pos, const Type& value)`; `pos` is the offset
of the iterator from `begin()`, the result the array and the offset of the
returned iterator.  `value` is read after `Resize` and the shift have run. -/
def Insert [Inhabited α] (v : SimpleVector α) (pos : Nat) (value : Ref α) :
    Except Fault (SimpleVector α × Nat) :=
  if ¬ pos ≤ v.size_ then .error .assertion
  else
    let n := narrow_int pos
    if pos = v.size_ then do
      let v1 ← PushBack v value
      let i ← int_index n
      let it ← ArrayPtr.addr v1.elements_ i
      .ok (v1, it)
    else do
      let v1 ← Resize v (v.size_ + 1)
      let i ← int_index n
      let first ← ArrayPtr.addr v1.elements_ i
      let last ← ArrayPtr.addr v1.elements_ (v1.size_ - 1)
      let d_last ← ArrayPtr.addr v1.elements_ v1.size_
      let shifted ← copy_backward v1.elements_ first last d_last
      let x ← value.read (Resize_releases v (v.size_ + 1)) shifted
      let b ← ArrayPtr.write shifted i x
      let it ← ArrayPtr.addr b i
      .ok ({ v1 with elements_ := b }, it)

/-- `Iterator Insert(ConstIterator pos, Type&& value)`; `mv x` is the state a
slot holding `x` is left in once its value has been moved out.  `value` is
read after `Resize` and the shift have run. -/
def InsertMove [Inhabited α] (mv : α → α) (v : SimpleVector α) (pos : Nat) (value : Ref α) :
    Except Fault (SimpleVector α × Nat) :=
  if ¬ pos ≤ v.size_ then .error .assertion
  else
    let n := narrow_int pos
    if pos = v.size_ then do
      let v1 ← PushBackMove mv v value
      let i ← int_index n
      let it ← ArrayPtr.addr v1.elements_ i
      .ok (v1, it)
    else do
      let v1 ← Resize v (v.size_ + 1)
      let i ← int_index n
      let first ← ArrayPtr.addr v1.elements_ i
      let last ← ArrayPtr.addr v1.elements_ (v1.size_ - 1)
      let d_last ← ArrayPtr.addr v1.elements_ v1.size_
      let shifted ← move_backward mv v1.elements_ first last d_last
      let x ← value.read (Resize_releases v (v.size_ + 1)) shifted
      let b ← ArrayPtr.write (value.moved_out mv x shifted) i x
      let it ← ArrayPtr.addr b i
      .ok ({ v1 with elements_ := b }, it)

/-- The loop of `std::copy(first, last, d_first)` over move iterators inside one
block, `while (first != last) *d_first++ = std::move(*first++);`, with
`trips = last - first`. -/
def move_forward_loop (mv : α → α) (block : List α) (first d_first : Nat) :
    Nat → Except Fault (List α)
  | 0 => .ok block
  | trips + 1 => do
      let x ← ArrayPtr.read block first
      let b0 ← ArrayPtr.write block first (mv x)
      let b ← ArrayPtr.write b0 d_first x
      move_forward_loop mv b (first + 1) (d_first + 1) trips

/-- `Iterator Erase(ConstIterator pos)`; `pos` is the offset of the iterator
from `begin()`, the result the array and the offset of the returned iterator. -/
def Erase [Inhabited α] (mv : α → α) (v : SimpleVector α) (pos : Nat) :
    Except Fault (SimpleVector α × Nat) :=
  if ¬ pos < v.size_ then .error .assertion
  else do
    let p := pos
    let b ← move_forward_loop mv v.elements_ (p + 1) p (v.size_ - (p + 1))
    let v1 ← Resize { v with elements_ := b } (v.size_ - 1)
    .ok (v1, p)

/-- `std::equal(first1, last1, first2)`: `for (; first1 != last1; ++first1,
++first2) if (!(*first1 == *first2)) return false; return true;`, both ranges
starting at offset `i`, with `trips = last1 - first1`. -/
def std_equal [DecidableEq α] (b1 b2 : List α) (i : Nat) : Nat → Except Fault Bool
  | 0 => .ok true
  | trips + 1 => do
      let x ← ArrayPtr.read b1 i
      let y ← ArrayPtr.read b2 i
      if x = y then std_equal b1 b2 (i + 1) trips else .ok false

/-- `operator==`: `std::equal(lhs.begin(), lhs.end(), rhs.begin())`. -/
def operator_eq [DecidableEq α] (lhs rhs : SimpleVector α) : Except Fault Bool :=
  std_equal lhs.elements_ rhs.elements_ 0 lhs.size_

/-- `operator!=`: `!(lhs == rhs)`. -/
def operator_ne [DecidableEq α] (lhs rhs : SimpleVector α) : Except Fault Bool := do
  let r ← operator_eq lhs rhs
  .ok (!r)

/-- `std::lexicographical_compare(first1, last1, first2, last2)`, both ranges
read at the common offset `i`:
`for (; first1 != last1 && first2 != last2; ++first1, ++first2) {
   if (*first1 < *first2) return true; if (*first2 < *first1) return false; }
 return first1 == last1 && first2 != last2;`
with `trips = min last1 last2 - i`. -/
def lexicographical_compare [LT α] [DecidableRel (fun (x y : α) => x < y)]
    (b1 : List α) (last1 : Nat) (b2 : List α) (last2 : Nat) (i : Nat) :
    Nat → Except Fault Bool
  | 0 => .ok (decide (i = last1) && decide (i ≠ last2))
  | trips + 1 => do
      let x ← ArrayPtr.read b1 i
      let y ← ArrayPtr.read b2 i
      if x < y then .ok true
      else if y < x then .ok false
      else lexicographical_compare b1 last1 b2 last2 (i + 1) trips

/-- `operator<`: `std::lexicographical_compare(lhs.begin(), lhs.end(),
rhs.begin(), rhs.end())`. -/
def operator_lt [LT α] [DecidableRel (fun (x y : α) => x < y)]
    (lhs rhs : SimpleVector α) : Except Fault Bool :=
  lexicographical_compare lhs.elements_ lhs.size_ rhs.elements_ rhs.size_ 0
    (min lhs.size_ rhs.size_)

/-- `operator<=`: `!(rhs < lhs)`. -/
def operator_le [LT α] [DecidableRel (fun (x y : α) => x < y)]
    (lhs rhs : SimpleVector α) : Except Fault Bool := do
  let r ← operator_lt rhs lhs
  .ok (!r)

/-- `operator>`: `rhs < lhs`. -/
def operator_gt [LT α] [DecidableRel (fun (x y : α) => x < y)]
    (lhs rhs : SimpleVector α) : Except Fault Bool :=
  operator_lt rhs lhs

/-- `operator>=`: `!(lhs < rhs)`. -/
def operator_ge [LT α] [DecidableRel (fun (x y : α) => x < y)]
    (lhs rhs : SimpleVector α) : Except Fault Bool := do
  let r ← operator_lt lhs rhs
  .ok (!r)

end SimpleVector

/-- `class ReserveProxyObj`: the reservation hint, carrying one capacity value. -/
structure ReserveProxyObj where
  capacity_ : Nat
  deriving DecidableEq

/-- `size_t ReserveProxyObj::GetCapacity()`. -/
def ReserveProxyObj.GetCapacity (r : ReserveProxyObj) : Nat :=
  r.capacity_

/-- `ReserveProxyObj Reserve(size_t capacity_to_reserve)`. -/
def Reserve (capacity_to_reserve : Nat) : ReserveProxyObj :=
  { capacity_ := capacity_to_reserve }

namespace ArrayPtr

/-- Modelled from the spec: `ArrayPtr::swap` of array_ptr.h, which is not among
the sources ("Swap(other): exchanges owned blocks between two buffers"). -/
def swap {α : Type} (a b : List α) : List α × List α :=
  (b, a)

/-- Modelled from the spec: move assignment of `ArrayPtr` (array_ptr.h, not among
the sources), `dst = std::move(src)`: the destination takes over the block of
the source ("ownership transfers via move/swap, never duplicates").  The spec
does not say what the source holds afterwards (nothing, or the former block of
the destination); `left_behind` gives it as a function of the destination's
former block.  The result is the pair (destination, source). -/
def move_assign {α : Type} (left_behind : List α → List α) (dst src : List α) :
    List α × List α :=
  (src, left_behind dst)

end ArrayPtr

namespace SimpleVector

variable {α : Type}

/-- `std::fill(first, last, value)` inside one block,
`for (; first != last; ++first) *first = value;`, with `trips = last - first`. -/
def std_fill (block : List α) (first : Nat) (value : α) : Nat → Except Fault (List α)
  | 0 => .ok block
  | trips + 1 => do
      let b ← ArrayPtr.write block first value
      std_fill b (first + 1) value trips

/-- `explicit SimpleVector(size_t size)`. -/
def from_size [Inhabited α] (size : Nat) : Except Fault (SimpleVector α) := do
  let b ← std_fill (ArrayPtr.alloc size) 0 default size
  .ok { elements_ := b, size_ := size, capacity_ := size }

/-- `SimpleVector(size_t size, const Type& value)`. -/
def from_size_value [Inhabited α] (size : Nat) (value : α) : Except Fault (SimpleVector α) :=
  if size = 0 then .ok { elements_ := ArrayPtr.alloc size, size_ := size, capacity_ := size }
  else do
    let b ← std_fill (ArrayPtr.alloc size) 0 value size
    .ok { elements_ := b, size_ := size, capacity_ := size }

/-- `SimpleVector(ReserveProxyObj reserve_obj)`. -/
def from_reserve [Inhabited α] (reserve_obj : ReserveProxyObj) : SimpleVector α :=
  { elements_ := ArrayPtr.alloc reserve_obj.GetCapacity, size_ := 0,
    capacity_ := reserve_obj.GetCapacity }

/-- `SimpleVector(const SimpleVector& other)`: the block is allocated with
`other.size_` slots, `capacity_` is copied from `other`. -/
def copy_ctor [Inhabited α] (other : SimpleVector α) : Except Fault (SimpleVector α) := do
  let b ← copy_elements other.elements_ (ArrayPtr.alloc other.size_) 0 other.size_
  .ok { elements_ := b, size_ := other.size_, capacity_ := other.capacity_ }

/-- `void swap(SimpleVector& other)` on two distinct objects (on one and the same
object the body returns at once): the pair (`*this`, `other`) after the call. -/
def swap (this other : SimpleVector α) : SimpleVector α × SimpleVector α :=
  ({ elements_ := (ArrayPtr.swap this.elements_ other.elements_).1,
     size_ := other.size_, capacity_ := other.capacity_ },
   { elements_ := (ArrayPtr.swap this.elements_ other.elements_).2,
     size_ := this.size_, capacity_ := this.capacity_ })

/-- `void swap(SimpleVector&& other)` on two distinct objects: the pair
(`*this`, `other`) after the call. -/
def swap_rvalue (left_behind : List α → List α) (this other : SimpleVector α) :
    SimpleVector α × SimpleVector α :=
  ({ elements_ := (ArrayPtr.move_assign left_behind this.elements_ other.elements_).1,
     size_ := other.size_, capacity_ := other.capacity_ },
   { elements_ := (ArrayPtr.move_assign left_behind this.elements_ other.elements_).2,
     size_ := 0, capacity_ := 0 })

/-- `SimpleVector(SimpleVector&& other)`: the pair (new object, `other`) after the
call.  The object under construction starts with an empty `elements_`; its
`size_` and `capacity_` are not initialised and not read, 0 stands for them. -/
def move_ctor (left_behind : List α → List α) (other : SimpleVector α) :
    SimpleVector α × SimpleVector α :=
  swap_rvalue left_behind { elements_ := [], size_ := 0, capacity_ := 0 } other

/-- `SimpleVector& operator=(const SimpleVector& rhs)` for `this != &rhs`: the
pair (`*this`, `rhs`) after the call; `rhs_copy` is destroyed on return. -/
def copy_assign [Inhabited α] (this rhs : SimpleVector α) :
    Except Fault (SimpleVector α × SimpleVector α) := do
  let rhs_copy ← copy_ctor rhs
  .ok ((swap this rhs_copy).1, rhs)

/-- `SimpleVector& operator=(SimpleVector&& rhs)` for `this != &rhs`: the pair
(`*this`, `rhs`) after the call.  Inside the body `rhs` is an lvalue, so
`SimpleVector rhs_copy(rhs)` is the copy constructor; `rhs_copy` is destroyed on
return. -/
def move_assign [Inhabited α] (left_behind : List α → List α) (this rhs : SimpleVector α) :
    Except Fault (SimpleVector α × SimpleVector α) := do
  let rhs_copy ← copy_ctor rhs
  .ok ((swap_rvalue left_behind this rhs_copy).1, rhs)

/-- `Type& operator[](size_t index)` followed by an assignment through the
returned reference. -/
def assign_index (v : SimpleVector α) (index : Nat) (x : α) : Except Fault (SimpleVector α) :=
  if index < v.size_ then do
    let b ← ArrayPtr.write v.elements_ index x
    .ok { v with elements_ := b }
  else .error .assertion

/-- The calls `PushBack(x1); ...; PushBack(xn);` one after the other, each
argument a reference as the call passes it. -/
def push_all [Inhabited α] (v : SimpleVector α) : List (Ref α) → Except Fault (SimpleVector α)
  | [] => .ok v
  | x :: xs => do
      let v1 ← PushBack v x
      push_all v1 xs

/-- The invariant of the doubling policy: the capacity is a power of two that is
at least the size and less than twice the size. -/
def DoublingInv (v : SimpleVector α) : Prop :=
  ∃ k : Nat, v.capacity_ = 2 ^ k ∧ v.size_ ≤ 2 ^ k ∧ 2 ^ k < 2 * v.size_

/-! ## Auxiliary lemmas: raw accesses and loops -/

@[simp] theorem ok_bind {β γ : Type} (a : β) (f : β → Except Fault γ) :
    (Except.ok a >>= f) = f a := rfl

@[simp] theorem error_bind {β γ : Type} (e : Fault) (f : β → Except Fault γ) :
    ((Except.error e : Except Fault β) >>= f) = .error e := rfl

theorem read_ok (block : List α) (i : Nat) (h : i < block.length) :
    ArrayPtr.read block i = .ok block[i] := by
  simp [ArrayPtr.read, List.getElem?_eq_getElem h]

theorem write_ok (block : List α) (i : Nat) (x : α) (h : i < block.length) :
    ArrayPtr.write block i x = .ok (block.set i x) := by
  simp [ArrayPtr.write, h]

theorem fill_default_ok [Inhabited α] (trips : Nat) : ∀ (block : List α) (it : Nat),
    it + trips ≤ block.length →
    fill_default block it trips =
      .ok (block.take it ++ List.replicate trips default ++ block.drop (it + trips)) := by
  induction trips with
  | zero => intro block it _; simp [fill_default]
  | succ k ih =>
    intro block it h
    have hit : it < block.length := by omega
    rw [fill_default, write_ok _ _ _ hit, ok_bind, ih _ _ (by simp; omega)]
    congr 1
    apply List.ext_getElem?
    intro j
    simp [List.getElem?_append, List.getElem?_take, List.getElem?_drop, List.getElem?_set,
      List.getElem?_replicate]
    split_ifs <;> first | rfl | omega | (congr 1; omega)

theorem read_some (block : List α) (i : Nat) (x : α) (h : block[i]? = some x) :
    ArrayPtr.read block i = .ok x := by
  simp [ArrayPtr.read, h]

theorem exists_getElem? (block : List α) (i : Nat) (h : i < block.length) :
    ∃ x, block[i]? = some x := ⟨block[i], List.getElem?_eq_getElem h⟩

theorem copy_elements_ok (trips : Nat) : ∀ (src dst : List α) (i : Nat),
    i + trips ≤ src.length → i + trips ≤ dst.length →
    copy_elements src dst i trips =
      .ok (dst.take i ++ (src.drop i).take trips ++ dst.drop (i + trips)) := by
  induction trips with
  | zero => intro src dst i _ _; simp [copy_elements]
  | succ k ih =>
    intro src dst i hs hd
    obtain ⟨x, hx⟩ := exists_getElem? src i (by omega)
    rw [copy_elements, read_some _ _ _ hx, ok_bind, write_ok _ _ _ (by omega), ok_bind,
      ih _ _ _ (by omega) (by simp; omega)]
    congr 1
    apply List.ext_getElem?
    intro j
    simp [List.getElem?_append, List.getElem?_take, List.getElem?_drop, List.getElem?_set]
    split_ifs <;> first | rfl | omega | (congr 1; omega) | (rw [← hx]; congr 1; omega)

/-- Pointwise description of the block after the backward shift by one slot. -/
theorem copy_backward_loop_ok (trips : Nat) : ∀ (block : List α) (last d_last : Nat),
    d_last = last + 1 → trips ≤ last → last < block.length →
    ∃ r, copy_backward_loop block last d_last trips = .ok r ∧ r.length = block.length ∧
      ∀ j, r[j]? = if last - trips < j ∧ j ≤ last then block[j - 1]? else block[j]? := by
  induction trips with
  | zero =>
    intro block last d_last _ _ _
    refine ⟨block, by simp [copy_backward_loop], rfl, fun j => ?_⟩
    rw [if_neg (by omega)]
  | succ k ih =>
    intro block last d_last hd hk hl
    obtain ⟨x, hx⟩ := exists_getElem? block (last - 1) (by omega)
    obtain ⟨r, hr, hlen, hpt⟩ := ih (block.set (d_last - 1) x) (last - 1) (d_last - 1)
      (by omega) (by omega) (by simp; omega)
    refine ⟨r, ?_, by simpa using hlen, fun j => ?_⟩
    · rw [copy_backward_loop, if_neg (by omega), read_some _ _ _ hx, ok_bind,
        write_ok _ _ _ (by omega), ok_bind, hr]
    · rw [hpt j]
      simp only [List.getElem?_set]
      split_ifs <;> first | rfl | omega | (congr 1; omega) | (rw [← hx]; congr 1; omega)

theorem move_backward_loop_ok (mv : α → α) (trips : Nat) : ∀ (block : List α) (last d_last : Nat),
    d_last = last + 1 → trips ≤ last → last < block.length →
    ∃ r, move_backward_loop mv block last d_last trips = .ok r ∧ r.length = block.length ∧
      ∀ j, r[j]? = if last - trips < j ∧ j ≤ last then block[j - 1]?
        else if j = last - trips ∧ 0 < trips then (block[j]?).map mv else block[j]? := by
  induction trips with
  | zero =>
    intro block last d_last _ _ _
    refine ⟨block, by simp [move_backward_loop], rfl, fun j => ?_⟩
    rw [if_neg (by omega), if_neg (by omega)]
  | succ k ih =>
    intro block last d_last hd hk hl
    obtain ⟨x, hx⟩ := exists_getElem? block (last - 1) (by omega)
    obtain ⟨r, hr, hlen, hpt⟩ := ih ((block.set (last - 1) (mv x)).set (d_last - 1) x)
      (last - 1) (d_last - 1) (by omega) (by omega) (by simp; omega)
    refine ⟨r, ?_, by simpa using hlen, fun j => ?_⟩
    · rw [move_backward_loop, if_neg (by omega), read_some _ _ _ hx, ok_bind,
        write_ok _ _ _ (by omega), ok_bind, write_ok _ _ _ (by simp; omega), ok_bind, hr]
    · rw [hpt j]
      simp only [List.getElem?_set, List.length_set]
      split_ifs <;> first | rfl | omega | (congr 1; omega) | (rw [← hx]; congr 1; omega) |
        (subst_vars; simp [hx])

theorem move_forward_loop_ok (mv : α → α) (trips : Nat) : ∀ (block : List α) (first d_first : Nat),
    first = d_first + 1 → first + trips ≤ block.length →
    ∃ r, move_forward_loop mv block first d_first trips = .ok r ∧ r.length = block.length ∧
      ∀ j, r[j]? = if d_first ≤ j ∧ j < d_first + trips then block[j + 1]?
        else if j = d_first + trips ∧ 0 < trips then (block[j]?).map mv else block[j]? := by
  induction trips with
  | zero =>
    intro block first d_first _ _
    refine ⟨block, by simp [move_forward_loop], rfl, fun j => ?_⟩
    rw [if_neg (by omega), if_neg (by omega)]
  | succ k ih =>
    intro block first d_first hd hl
    obtain ⟨x, hx⟩ := exists_getElem? block first (by omega)
    obtain ⟨r, hr, hlen, hpt⟩ := ih ((block.set first (mv x)).set d_first x)
      (first + 1) (d_first + 1) (by omega) (by simp; omega)
    refine ⟨r, ?_, by simpa using hlen, fun j => ?_⟩
    · rw [move_forward_loop, read_some _ _ _ hx, ok_bind,
        write_ok _ _ _ (by omega), ok_bind, write_ok _ _ _ (by simp; omega), ok_bind, hr]
    · rw [hpt j]
      simp only [List.getElem?_set, List.length_set]
      split_ifs <;> first | rfl | omega | (congr 1; omega) | (rw [← hx]; congr 1; omega) |
        (subst_vars; simp [hx])

theorem live_length (v : SimpleVector α) (h : v.size_ ≤ v.elements_.length) :
    (live v).length = v.size_ := by
  simp [live, h]

theorem live_getElem? (v : SimpleVector α) (j : Nat) :
    (live v)[j]? = if j < v.size_ then v.elements_[j]? else none := by
  simp [live, List.getElem?_take]

theorem Resize_ok [Inhabited α] (v : SimpleVector α) (m : Nat) (h : WellFormed v) :
    ∃ v', Resize v m = .ok v' ∧ WellFormed v' ∧ v'.size_ = m ∧
      v'.capacity_ = (if m ≤ v.capacity_ then v.capacity_ else max m (2 * v.size_)) ∧
      live v' = (live v).take m ++ List.replicate (m - v.size_) default := by
  obtain ⟨hsc, hcl⟩ := h
  unfold Resize
  by_cases h1 : m = v.size_
  · refine ⟨v, by simp [h1], ⟨hsc, hcl⟩, h1.symm, by rw [if_pos (by omega)], ?_⟩
    subst h1
    simp [live]
  by_cases h2 : m < v.size_
  · refine ⟨{ v with size_ := m }, by simp [h1, h2], ⟨by simp; omega, hcl⟩, rfl,
      by rw [if_pos (by omega)], ?_⟩
    have : m - v.size_ = 0 := by omega
    simp [live, this, List.take_take]
    omega
  by_cases h3 : m ≤ v.capacity_
  · rw [if_neg h1, if_neg h2, if_pos h3, fill_default_ok _ _ _ (by omega), ok_bind]
    refine ⟨_, rfl, ⟨h3, by simp; omega⟩, rfl, by rw [if_pos h3], ?_⟩
    apply List.ext_getElem?
    intro j
    simp [live, List.getElem?_append, List.getElem?_take, List.getElem?_drop,
      List.getElem?_replicate]
    split_ifs <;> first | rfl | omega
  · rw [if_neg h1, if_neg h2, if_neg h3]
    dsimp only
    rw [copy_elements_ok _ _ _ _ (by omega) (by simp [ArrayPtr.alloc]; omega), ok_bind,
      fill_default_ok _ _ _ (by simp [ArrayPtr.alloc]; omega), ok_bind]
    refine ⟨_, rfl, ⟨by simp, by simp [ArrayPtr.alloc]; omega⟩, rfl, by rw [if_neg h3], ?_⟩
    apply List.ext_getElem?
    intro j
    simp [live, ArrayPtr.alloc, List.getElem?_append, List.getElem?_take, List.getElem?_drop,
      List.getElem?_replicate]
    split_ifs <;> first | rfl | omega

theorem read_outside (x : α) (released : Bool) (block : List α) :
    (Ref.outside x).read released block = .ok x := rfl

theorem moved_out_outside (mv : α → α) (x y : α) (block : List α) :
    (Ref.outside y).moved_out mv x block = block := rfl

theorem PushBackMove_outside [Inhabited α] (mv : α → α) (v : SimpleVector α) (x : α) :
    PushBackMove mv v (.outside x) = PushBack v (.outside x) := rfl

theorem PushBack_ok [Inhabited α] (v : SimpleVector α) (x : α) (h : WellFormed v) :
    ∃ v', PushBack v (.outside x) = .ok v' ∧ WellFormed v' ∧ v'.size_ = v.size_ + 1 ∧
      v'.capacity_ = (if v.size_ + 1 ≤ v.capacity_ then v.capacity_
        else max (v.size_ + 1) (2 * v.size_)) ∧
      live v' = live v ++ [x] := by
  obtain ⟨v1, hR, ⟨hsc, hcl⟩, hsz, hcap, hlive⟩ := Resize_ok v (v.size_ + 1) h
  have hlen : v.size_ ≤ v.elements_.length := by have := h.1; have := h.2; omega
  refine ⟨{ v1 with elements_ := v1.elements_.set (v1.size_ - 1) x }, ?_, ?_, hsz, hcap, ?_⟩
  · rw [PushBack, hR, ok_bind, read_outside, ok_bind, write_ok _ _ _ (by omega), ok_bind]
  · exact ⟨hsc, by simp; exact hcl⟩
  · have h1 : ∀ j : Nat, (live v1)[j]? = (live v ++ [default])[j]? := by
      intro j
      rw [hlive, List.take_of_length_le (by rw [live_length v hlen]; omega)]
      simp
    apply List.ext_getElem?
    intro j
    have h2 := h1 j
    simp only [live_getElem?, List.getElem?_append, live_length v hlen, List.getElem?_set] at h2 ⊢
    rw [hsz] at h2 ⊢
    by_cases hj : j < v.size_
    · rw [if_pos (by omega), if_pos hj] at h2
      rw [if_pos (by omega), if_pos hj, if_neg (by omega), h2]
    · by_cases hj2 : j = v.size_
      · subst hj2
        simp
        omega
      · have : ¬ j < v.size_ + 1 := by omega
        simp [this, hj]
        omega

theorem narrow_int_le (pos i : Nat) (h : narrow_int pos = (i : Int)) : i ≤ pos := by
  unfold narrow_int at h
  split_ifs at h <;> omega

theorem narrow_int_small (pos : Nat) (h : pos < 2 ^ 31) : narrow_int pos = (pos : Int) := by
  unfold narrow_int
  have : pos % 2 ^ 32 = pos := Nat.mod_eq_of_lt (by omega)
  rw [this, if_pos h]

theorem int_index_natCast (i : Nat) : int_index (i : Int) = .ok i := by
  simp [int_index]

theorem addr_ok (block : List α) (i : Nat) (h : i ≤ block.length) :
    ArrayPtr.addr block i = .ok i := by
  simp [ArrayPtr.addr, h]

theorem Resize_succ_ok [Inhabited α] (v : SimpleVector α) (h : WellFormed v) :
    ∃ v1, Resize v (v.size_ + 1) = .ok v1 ∧ WellFormed v1 ∧ v1.size_ = v.size_ + 1 ∧
      v1.capacity_ = (if v.size_ + 1 ≤ v.capacity_ then v.capacity_
        else max (v.size_ + 1) (2 * v.size_)) ∧
      ∀ j : Nat, j < v.size_ → v1.elements_[j]? = v.elements_[j]? := by
  obtain ⟨v1, hR, hwf, hsz, hcap, hlive⟩ := Resize_ok v (v.size_ + 1) h
  have hlen : v.size_ ≤ v.elements_.length := by have := h.1; have := h.2; omega
  refine ⟨v1, hR, hwf, hsz, hcap, fun j hj => ?_⟩
  have h1 : (live v1)[j]? = (live v)[j]? := by
    rw [hlive, List.take_of_length_le (by rw [live_length v hlen]; omega),
      List.getElem?_append_left (by rw [live_length v hlen]; exact hj)]
  rw [live_getElem?, live_getElem?, if_pos (by omega), if_pos hj] at h1
  exact h1

theorem shifted_live (v v1 : SimpleVector α) (r : List α) (i : Nat) (x : α)
    (hv1 : ∀ j : Nat, j < v.size_ → v1.elements_[j]? = v.elements_[j]?)
    (hlen1 : v.size_ + 1 ≤ v1.elements_.length) (hvlen : v.size_ ≤ v.elements_.length)
    (hi : i < v.size_) (hlen : r.length = v1.elements_.length)
    (hr : ∀ j : Nat, j ≠ i → r[j]? =
      if i < j ∧ j ≤ v.size_ then v1.elements_[j - 1]? else v1.elements_[j]?) :
    (r.set i x).take (v.size_ + 1) = (live v).take i ++ [x] ++ (live v).drop i := by
  apply List.ext_getElem?
  intro j
  by_cases hji : j = i
  · subst hji
    simp [List.getElem?_append, List.getElem?_take, List.getElem?_drop, List.getElem?_cons,
      List.getElem?_set, live_length v hvlen]
    have : min j v.size_ = j := by omega
    simp [this]
    omega
  · have hrj := hr j hji
    have hmin : min i v.size_ = i := by omega
    have hset : (r.set i x)[j]? = r[j]? := by
      rw [List.getElem?_set, if_neg (fun h => hji h.symm)]
    rw [List.getElem?_take, hset, hrj]
    simp only [List.getElem?_append, List.getElem?_take, List.getElem?_drop, List.getElem?_cons,
      live_length v hvlen, live_getElem?, List.length_take,
      List.length_append, List.length_singleton, hmin]
    split_ifs <;> first | rfl | omega | (apply hv1; omega) |
      (rw [hv1 _ (by omega)]; congr 1; omega)

/-- What `Insert` does at a position before `end` whose `int` narrowing is the
index `i`: it inserts at `i`. -/
theorem Insert_at [Inhabited α] (v : SimpleVector α) (pos i : Nat) (x : α)
    (h : WellFormed v) (hp : pos < v.size_) (hi : narrow_int pos = (i : Int)) :
    ∃ v', Insert v pos (.outside x) = .ok (v', i) ∧ WellFormed v' ∧ v'.size_ = v.size_ + 1 ∧
      v'.capacity_ = (if v.size_ + 1 ≤ v.capacity_ then v.capacity_
        else max (v.size_ + 1) (2 * v.size_)) ∧
      live v' = (live v).take i ++ [x] ++ (live v).drop i := by
  have hle := narrow_int_le pos i hi
  have hvlen : v.size_ ≤ v.elements_.length := by have := h.1; have := h.2; omega
  obtain ⟨v1, hR, ⟨hsc1, hcl1⟩, hsz, hcap, hv1⟩ := Resize_succ_ok v h
  obtain ⟨r, hr, hlen, hpt⟩ := copy_backward_loop_ok (v1.size_ - 1 - i) v1.elements_
    (v1.size_ - 1) v1.size_ (by omega) (by omega) (by omega)
  refine ⟨{ v1 with elements_ := r.set i x }, ?_, ⟨hsc1, by simp; omega⟩, hsz, hcap, ?_⟩
  · unfold Insert
    rw [if_neg (by omega)]
    dsimp only
    rw [if_neg (by omega), hR, ok_bind, hi, int_index_natCast, ok_bind,
      addr_ok _ _ (by omega), ok_bind, addr_ok _ _ (by omega), ok_bind,
      addr_ok _ _ (by omega), ok_bind]
    unfold copy_backward
    rw [if_pos (by omega), hr, ok_bind, read_outside, ok_bind, write_ok _ _ _ (by omega),
      ok_bind, addr_ok _ _ (by simp; omega), ok_bind]
  · show (r.set i x).take v1.size_ = _
    rw [hsz]
    refine shifted_live v v1 r i x hv1 (by omega) hvlen (by omega) hlen (fun j hj => ?_)
    rw [hpt j]
    have e1 : v1.size_ - 1 - (v1.size_ - 1 - i) = i := by omega
    have e2 : v1.size_ - 1 = v.size_ := by omega
    rw [e1, e2]

/-- The same for the overload that takes `value` by rvalue reference. -/
theorem InsertMove_at [Inhabited α] (mv : α → α) (v : SimpleVector α) (pos i : Nat) (x : α)
    (h : WellFormed v) (hp : pos < v.size_) (hi : narrow_int pos = (i : Int)) :
    ∃ v', InsertMove mv v pos (.outside x) = .ok (v', i) ∧ WellFormed v' ∧
      v'.size_ = v.size_ + 1 ∧
      v'.capacity_ = (if v.size_ + 1 ≤ v.capacity_ then v.capacity_
        else max (v.size_ + 1) (2 * v.size_)) ∧
      live v' = (live v).take i ++ [x] ++ (live v).drop i := by
  have hle := narrow_int_le pos i hi
  have hvlen : v.size_ ≤ v.elements_.length := by have := h.1; have := h.2; omega
  obtain ⟨v1, hR, ⟨hsc1, hcl1⟩, hsz, hcap, hv1⟩ := Resize_succ_ok v h
  obtain ⟨r, hr, hlen, hpt⟩ := move_backward_loop_ok mv (v1.size_ - 1 - i) v1.elements_
    (v1.size_ - 1) v1.size_ (by omega) (by omega) (by omega)
  refine ⟨{ v1 with elements_ := r.set i x }, ?_, ⟨hsc1, by simp; omega⟩, hsz, hcap, ?_⟩
  · unfold InsertMove
    rw [if_neg (by omega)]
    dsimp only
    rw [if_neg (by omega), hR, ok_bind, hi, int_index_natCast, ok_bind,
      addr_ok _ _ (by omega), ok_bind, addr_ok _ _ (by omega), ok_bind,
      addr_ok _ _ (by omega), ok_bind]
    unfold move_backward
    rw [if_pos (by omega), hr, ok_bind, read_outside, ok_bind, moved_out_outside,
      write_ok _ _ _ (by omega), ok_bind, addr_ok _ _ (by simp; omega), ok_bind]
  · show (r.set i x).take v1.size_ = _
    rw [hsz]
    refine shifted_live v v1 r i x hv1 (by omega) hvlen (by omega) hlen (fun j hj => ?_)
    rw [hpt j]
    have e1 : v1.size_ - 1 - (v1.size_ - 1 - i) = i := by omega
    have e2 : v1.size_ - 1 = v.size_ := by omega
    have hne : ¬ (j = i ∧ 0 < v.size_ - i) := fun hc => hj hc.1
    rw [e1, e2, if_neg hne]

/-- What `Insert` does at `end`: `PushBack`, and the returned iterator is the `int`
narrowing of the position. -/
theorem Insert_end [Inhabited α] (mv : α → α) (v : SimpleVector α) (i : Nat) (x : α)
    (h : WellFormed v) (hi : narrow_int v.size_ = (i : Int)) :
    ∃ v', PushBack v (.outside x) = .ok v' ∧ Insert v v.size_ (.outside x) = .ok (v', i) ∧
      InsertMove mv v v.size_ (.outside x) = .ok (v', i) := by
  have hle := narrow_int_le _ i hi
  obtain ⟨v', hP, ⟨hsc, hcl⟩, hsz, _, _⟩ := PushBack_ok v x h
  refine ⟨v', hP, ?_, ?_⟩
  · unfold Insert
    rw [if_neg (by omega)]
    dsimp only
    rw [if_pos rfl, hP, ok_bind, hi, int_index_natCast, ok_bind, addr_ok _ _ (by omega),
      ok_bind]
  · unfold InsertMove
    rw [if_neg (by omega)]
    dsimp only
    rw [if_pos rfl, PushBackMove_outside, hP, ok_bind, hi, int_index_natCast, ok_bind,
      addr_ok _ _ (by omega), ok_bind]

theorem Resize_returns [Inhabited α] (v : SimpleVector α) (m : Nat)
    (hs : v.size_ ≤ v.elements_.length) (hc : v.capacity_ ≤ v.elements_.length) :
    ∃ v', Resize v m = .ok v' := by
  unfold Resize
  by_cases h1 : m = v.size_
  · exact ⟨v, by simp [h1]⟩
  by_cases h2 : m < v.size_
  · rw [if_neg h1, if_pos h2]
    exact ⟨_, rfl⟩
  by_cases h3 : m ≤ v.capacity_
  · rw [if_neg h1, if_neg h2, if_pos h3, fill_default_ok _ _ _ (by omega), ok_bind]
    exact ⟨_, rfl⟩
  · rw [if_neg h1, if_neg h2, if_neg h3]
    dsimp only
    rw [copy_elements_ok _ _ _ _ (by omega) (by simp [ArrayPtr.alloc]; omega), ok_bind,
      fill_default_ok _ _ _ (by simp [ArrayPtr.alloc]; omega), ok_bind]
    exact ⟨_, rfl⟩

theorem drop_of_getElem? (l : List α) (i : Nat) (x : α) (h : l[i]? = some x) :
    l.drop i = x :: l.drop (i + 1) := by
  obtain ⟨hi, hx⟩ := List.getElem?_eq_some.mp h
  rw [List.drop_eq_getElem_cons hi, hx]

theorem std_equal_ok [DecidableEq α] (trips : Nat) : ∀ (b1 b2 : List α) (i : Nat),
    i + trips ≤ b1.length → i + trips ≤ b2.length →
    std_equal b1 b2 i trips =
      .ok (decide ((b1.drop i).take trips = (b2.drop i).take trips)) := by
  induction trips with
  | zero => intro b1 b2 i _ _; simp [std_equal]
  | succ k ih =>
    intro b1 b2 i h1 h2
    obtain ⟨x, hx⟩ := exists_getElem? b1 i (by omega)
    obtain ⟨y, hy⟩ := exists_getElem? b2 i (by omega)
    rw [std_equal, read_some _ _ _ hx, ok_bind, read_some _ _ _ hy, ok_bind,
      drop_of_getElem? _ _ _ hx, drop_of_getElem? _ _ _ hy, List.take_succ_cons,
      List.take_succ_cons]
    by_cases hxy : x = y
    · rw [if_pos hxy, ih _ _ _ (by omega) (by omega)]
      subst hxy
      simp
    · rw [if_neg hxy]
      simp [hxy]

theorem lex_nil_left_iff {r : α → α → Prop} (l : List α) : List.Lex r [] l ↔ l ≠ [] := by
  cases l with
  | nil => simp
  | cons a t => exact ⟨fun _ => by simp, fun _ => List.Lex.nil⟩

theorem lex_cons_of_lt [LinearOrder α] (x y : α) (l1 l2 : List α) (h : x < y) :
    List.Lex (fun (a b : α) => a < b) (x :: l1) (y :: l2) := List.Lex.rel h

theorem not_lex_cons_of_gt [LinearOrder α] (x y : α) (l1 l2 : List α) (h : y < x) :
    ¬ List.Lex (fun (a b : α) => a < b) (x :: l1) (y :: l2) := by
  intro hl
  cases hl with
  | cons _ => exact lt_irrefl _ h
  | rel h' => exact lt_asymm h h'

theorem lex_cons_same [LinearOrder α] (x : α) (l1 l2 : List α) :
    List.Lex (fun (a b : α) => a < b) (x :: l1) (x :: l2) ↔
      List.Lex (fun (a b : α) => a < b) l1 l2 := by
  constructor
  · intro hl
    cases hl with
    | cons h => exact h
    | rel h' => exact absurd h' (lt_irrefl _)
  · exact List.Lex.cons

theorem lexicographical_compare_ok [LinearOrder α] (trips : Nat) :
    ∀ (b1 b2 : List α) (s1 s2 i : Nat), s1 ≤ b1.length → s2 ≤ b2.length →
    i + trips = min s1 s2 →
    ∃ r, lexicographical_compare b1 s1 b2 s2 i trips = .ok r ∧
      (r = true ↔ List.Lex (fun (a b : α) => a < b)
        ((b1.take s1).drop i) ((b2.take s2).drop i)) := by
  induction trips with
  | zero =>
    intro b1 b2 s1 s2 i h1 h2 hi
    refine ⟨_, rfl, ?_⟩
    by_cases e1 : i = s1
    · have hd : (b1.take s1).drop i = [] := by
        apply List.eq_nil_of_length_eq_zero
        simp; omega
      rw [hd, lex_nil_left_iff]
      have hne : (List.drop i (List.take s2 b2) ≠ []) ↔ i ≠ s2 := by
        rw [Ne, ← List.length_eq_zero]
        simp
        omega
      rw [hne]
      simp [e1]
    · have hd : (b2.take s2).drop i = [] := by
        apply List.eq_nil_of_length_eq_zero
        simp; omega
      rw [hd]
      simp [e1]
  | succ k ih =>
    intro b1 b2 s1 s2 i h1 h2 hi
    obtain ⟨x, hx⟩ := exists_getElem? b1 i (by omega)
    obtain ⟨y, hy⟩ := exists_getElem? b2 i (by omega)
    have hx' : (b1.take s1)[i]? = some x := by
      rw [List.getElem?_take, if_pos (by omega), hx]
    have hy' : (b2.take s2)[i]? = some y := by
      rw [List.getElem?_take, if_pos (by omega), hy]
    rw [lexicographical_compare, read_some _ _ _ hx, ok_bind, read_some _ _ _ hy, ok_bind,
      drop_of_getElem? _ _ _ hx', drop_of_getElem? _ _ _ hy']
    by_cases hlt : x < y
    · rw [if_pos hlt]
      exact ⟨true, rfl, fun _ => lex_cons_of_lt x y _ _ hlt, fun _ => rfl⟩
    · rw [if_neg hlt]
      by_cases hgt : y < x
      · rw [if_pos hgt]
        exact ⟨false, rfl, fun hc => absurd hc (by decide),
          fun hc => absurd hc (not_lex_cons_of_gt x y _ _ hgt)⟩
      · rw [if_neg hgt]
        have hxy : x = y := le_antisymm (not_lt.mp hgt) (not_lt.mp hlt)
        subst hxy
        obtain ⟨r, hr, hiff⟩ := ih b1 b2 s1 s2 (i + 1) h1 h2 (by omega)
        exact ⟨r, hr, hiff.trans (lex_cons_same x _ _).symm⟩

/-! ## The claims -/

/-- What holds of C1: on an array that satisfies the data-model invariant,
`PushBack` of an object that is no element of the array returns, the size grows
by exactly one, checked access at the new last index returns the pushed value,
and checked access at every index below the old size returns what it returned
before; the overload taking `Type&&` returns the same array. -/
theorem PushBack_outside_appends [Inhabited α] (mv : α → α) (v : SimpleVector α) (x : α)
    (h : WellFormed v) :
    ∃ v', PushBack v (.outside x) = .ok v' ∧ PushBackMove mv v (.outside x) = .ok v' ∧
      v'.size_ = v.size_ + 1 ∧ (At v' (v'.size_ - 1)).1 = .ok x ∧
      ∀ i, i < v.size_ → ∃ y, (At v i).1 = .ok y ∧ (At v' i).1 = .ok y := by
  obtain ⟨v', hP, hwf, hsz, _, hlive⟩ := PushBack_ok v x h
  have hlen : v.size_ ≤ v.elements_.length := by have := h.1; have := h.2; omega
  have hlen' : v'.size_ ≤ v'.elements_.length := by have := hwf.1; have := hwf.2; omega
  have key : ∀ j : Nat, j < v'.size_ → v'.elements_[j]? = (live v ++ [x])[j]? := by
    intro j hj
    rw [← hlive, live_getElem?, if_pos hj]
  refine ⟨v', hP, (PushBackMove_outside mv v x).trans hP, hsz, ?_, ?_⟩
  · have := key (v'.size_ - 1) (by omega)
    rw [List.getElem?_append_right (by rw [live_length v hlen]; omega)] at this
    simp only [live_length v hlen, hsz, Nat.add_sub_cancel, Nat.sub_self,
      List.getElem?_cons_zero] at this
    simp only [At, hsz, Nat.add_sub_cancel]
    rw [if_neg (by omega)]
    exact read_some _ _ _ this
  · intro i hi
    obtain ⟨y, hy⟩ := exists_getElem? v.elements_ i (by omega)
    refine ⟨y, ?_, ?_⟩
    · simp only [At]
      rw [if_neg (by omega)]
      exact read_some _ _ _ hy
    · have := key i (by omega)
      rw [List.getElem?_append_left (by rw [live_length v hlen]; omega), live_getElem?,
        if_pos hi, hy] at this
      simp only [At]
      rw [if_neg (by omega)]
      exact read_some _ _ _ this

/-- The same at the array `[1, 2, 3]` (size 3, capacity 3) and the value 4. -/
theorem PushBack_outside_appends_example :
    WellFormed (⟨[1, 2, 3], 3, 3⟩ : SimpleVector Nat) ∧
    ∃ v', PushBack (⟨[1, 2, 3], 3, 3⟩ : SimpleVector Nat) (.outside 4) = .ok v' ∧
      PushBackMove id (⟨[1, 2, 3], 3, 3⟩ : SimpleVector Nat) (.outside 4) = .ok v' ∧
      v'.size_ = 3 + 1 ∧ (At v' (v'.size_ - 1)).1 = .ok 4 ∧
      ∀ i, i < 3 → ∃ y, (At (⟨[1, 2, 3], 3, 3⟩ : SimpleVector Nat) i).1 = .ok y ∧
        (At v' i).1 = .ok y :=
  ⟨by decide, PushBack_outside_appends id ⟨[1, 2, 3], 3, 3⟩ 4 (by decide)⟩

/-- On a well-formed array that is full (`size = capacity`), `PushBack` of one of
its own elements reallocates, releases the block the argument refers into, and
then reads the argument: both overloads end in the dangling-read fault. -/
theorem PushBack_element_dangling [Inhabited α] (mv : α → α) (v : SimpleVector α) (i : Nat)
    (h : WellFormed v) (hfull : v.size_ = v.capacity_) :
    PushBack v (.element i) = .error .dangling ∧
    PushBackMove mv v (.element i) = .error .dangling := by
  obtain ⟨v1, hR, _⟩ := Resize_ok v (v.size_ + 1) h
  have hrel : Resize_releases v (v.size_ + 1) = true := by
    simp only [Resize_releases, decide_eq_true_eq]
    omega
  constructor
  · rw [PushBack, hR, ok_bind]
    simp [Ref.read, hrel]
  · rw [PushBackMove, hR, ok_bind]
    simp [Ref.read, hrel]

/-- On a well-formed array with room left (`size < capacity`), `PushBack` of one
of its own live elements does what `PushBack` of that element's value does: no
block is released and the slot is not written before it is read. -/
theorem PushBack_element_in_capacity [Inhabited α] (v : SimpleVector α) (i : Nat) (x : α)
    (h : WellFormed v) (hi : i < v.size_) (hroom : v.size_ < v.capacity_)
    (hx : v.elements_[i]? = some x) :
    PushBack v (.element i) = PushBack v (.outside x) := by
  obtain ⟨v1, hR, _, _, _, hv1⟩ := Resize_succ_ok v h
  have hrel : Resize_releases v (v.size_ + 1) = false := by
    simp only [Resize_releases, decide_eq_false_iff_not]
    omega
  have hread : (Ref.element i).read (Resize_releases v (v.size_ + 1)) v1.elements_ = .ok x := by
    rw [hrel]
    exact read_some _ _ _ ((hv1 i hi).trans hx)
  rw [PushBack, PushBack, hR, ok_bind, ok_bind, read_outside, hread]

/-- C1: the failing input.  On the well-formed array `[1, 2, 3]` with capacity 3,
`v.PushBack(v[0])` reallocates, releases the block `item` refers into and then
reads `item`, for both overloads; the value 1 passed from outside the array is
appended as the claim says. -/
theorem PushBack_reads_released_block :
    WellFormed (⟨[1, 2, 3], 3, 3⟩ : SimpleVector Nat) ∧
    PushBack (⟨[1, 2, 3], 3, 3⟩ : SimpleVector Nat) (.element 0) = .error .dangling ∧
    PushBackMove id (⟨[1, 2, 3], 3, 3⟩ : SimpleVector Nat) (.element 0) = .error .dangling ∧
    PushBack (⟨[1, 2, 3], 3, 3⟩ : SimpleVector Nat) (.outside 1) =
      .ok ⟨[1, 2, 3, 1, 0, 0], 4, 6⟩ :=
  ⟨by decide, by decide, by decide, by decide⟩

/-- C4: checked access `At(i)` ends with the out-of-range error exactly when
`i ≥ size`; when `i < size` (and the live elements lie inside the block) it
returns the `i`-th live element; in every case the array after the call is the
array before it. -/
theorem At_checked (v : SimpleVector α) (i : Nat) :
    ((At v i).1 = .error .out_of_range ↔ v.size_ ≤ i) ∧
    (i < v.size_ → v.size_ ≤ v.elements_.length →
      ∃ x, (live v)[i]? = some x ∧ (At v i).1 = .ok x) ∧
    (At v i).2 = v := by
  refine ⟨?_, ?_, ?_⟩
  · by_cases h : v.size_ ≤ i
    · simp [At, h]
    · simp only [At, ge_iff_le, if_neg h, h, iff_false]
      unfold ArrayPtr.read
      cases v.elements_[i]? <;> simp
  · intro hi hlen
    obtain ⟨x, hx⟩ := exists_getElem? v.elements_ i (by omega)
    refine ⟨x, by rw [live_getElem?, if_pos hi, hx], ?_⟩
    simp only [At, ge_iff_le]
    rw [if_neg (by omega)]
    exact read_some _ _ _ hx
  · unfold At
    split <;> rfl

/-- C4, at an array of size 3: index 3 reports out-of-range, index 2 returns the
last element. -/
theorem At_checked_witness :
    (At (⟨[1, 2, 3], 3, 3⟩ : SimpleVector Nat) 3).1 = .error .out_of_range ∧
    ∃ x, (live (⟨[1, 2, 3], 3, 3⟩ : SimpleVector Nat))[2]? = some x ∧
      (At (⟨[1, 2, 3], 3, 3⟩ : SimpleVector Nat) 2).1 = .ok x :=
  ⟨(At_checked (⟨[1, 2, 3], 3, 3⟩ : SimpleVector Nat) 3).1.2 (by decide),
   (At_checked (⟨[1, 2, 3], 3, 3⟩ : SimpleVector Nat) 2).2.1 (by decide) (by decide)⟩

/-- C5: on a well-formed array with live sequence `L`, whatever the slots from
`size` on hold, `Resize(m)` returns, sets the size to `m`, and leaves the live
sequence `L.take m` when `m ≤ |L|` and `L` followed by `m - |L|` default values
when `m > |L|`, whether or not `m` exceeds the capacity. -/
theorem Resize_live [Inhabited α] (v : SimpleVector α) (m : Nat) (h : WellFormed v) :
    ∃ v', Resize v m = .ok v' ∧ v'.size_ = m ∧
      (m ≤ (live v).length → live v' = (live v).take m) ∧
      ((live v).length < m →
        live v' = live v ++ List.replicate (m - (live v).length) default) := by
  obtain ⟨v', hR, _, hsz, _, hlive⟩ := Resize_ok v m h
  have hlen : (live v).length = v.size_ :=
    live_length v (by have := h.1; have := h.2; omega)
  refine ⟨v', hR, hsz, ?_, ?_⟩
  · intro hm
    have : m - v.size_ = 0 := by omega
    rw [hlive, this]
    simp
  · intro hm
    rw [hlive, hlen, List.take_of_length_le (by omega)]

/-- C5, at an array with live sequence `[1, 2]` and stale slots `7, 8, 9`:
growing inside the capacity, growing past it, and shrinking. -/
theorem Resize_live_witness :
    WellFormed (⟨[1, 2, 7, 8, 9], 2, 5⟩ : SimpleVector Nat) ∧
    (∃ v', Resize (⟨[1, 2, 7, 8, 9], 2, 5⟩ : SimpleVector Nat) 4 = .ok v' ∧ v'.size_ = 4 ∧
      live v' = [1, 2, 0, 0]) ∧
    (∃ v', Resize (⟨[1, 2, 7, 8, 9], 2, 5⟩ : SimpleVector Nat) 6 = .ok v' ∧ v'.size_ = 6 ∧
      live v' = [1, 2, 0, 0, 0, 0]) ∧
    (∃ v', Resize (⟨[1, 2, 7, 8, 9], 2, 5⟩ : SimpleVector Nat) 1 = .ok v' ∧ v'.size_ = 1 ∧
      live v' = [1]) := by
  refine ⟨by decide, ?_, ?_, ?_⟩
  · obtain ⟨v', h1, h2, _, h4⟩ :=
      Resize_live (⟨[1, 2, 7, 8, 9], 2, 5⟩ : SimpleVector Nat) 4 (by decide)
    exact ⟨v', h1, h2, h4 (by decide)⟩
  · obtain ⟨v', h1, h2, _, h4⟩ :=
      Resize_live (⟨[1, 2, 7, 8, 9], 2, 5⟩ : SimpleVector Nat) 6 (by decide)
    exact ⟨v', h1, h2, h4 (by decide)⟩
  · obtain ⟨v', h1, h2, h3, _⟩ :=
      Resize_live (⟨[1, 2, 7, 8, 9], 2, 5⟩ : SimpleVector Nat) 1 (by decide)
    exact ⟨v', h1, h2, h3 (by decide)⟩

/-- C6: for an array with size `s ≤` capacity `c` and every `m`, whenever
`Resize(m)` returns, the capacity is still `c` if `m ≤ c` and is exactly
`max m (2 * s)` otherwise, so it is neither below `c` nor below `m`; and
`Resize(m)` does return whenever the block has at least `c` slots. -/
theorem Resize_capacity [Inhabited α] (v : SimpleVector α) (m : Nat)
    (h : v.size_ ≤ v.capacity_) :
    (∀ v', Resize v m = .ok v' →
      (m ≤ v.capacity_ → v'.capacity_ = v.capacity_) ∧
      (v.capacity_ < m → v'.capacity_ = max m (2 * v.size_)) ∧
      v.capacity_ ≤ v'.capacity_ ∧ m ≤ v'.capacity_) ∧
    (v.capacity_ ≤ v.elements_.length → ∃ v', Resize v m = .ok v') := by
  refine ⟨?_, fun hc => Resize_returns v m (by omega) hc⟩
  intro v' hR
  unfold Resize at hR
  by_cases h1 : m = v.size_
  · rw [if_pos h1] at hR
    cases hR
    exact ⟨fun _ => rfl, fun _ => by omega, le_refl _, by omega⟩
  by_cases h2 : m < v.size_
  · rw [if_neg h1, if_pos h2] at hR
    cases hR
    exact ⟨fun _ => rfl, fun _ => by omega, le_refl _, by simp; omega⟩
  by_cases h3 : m ≤ v.capacity_
  · rw [if_neg h1, if_neg h2, if_pos h3] at hR
    cases hf : fill_default v.elements_ v.size_ (m - v.size_) with
    | error e => rw [hf] at hR; cases hR
    | ok b =>
      rw [hf, ok_bind] at hR
      cases hR
      exact ⟨fun _ => rfl, fun _ => by omega, le_refl _, h3⟩
  · rw [if_neg h1, if_neg h2, if_neg h3] at hR
    dsimp only at hR
    cases hc : copy_elements v.elements_
        (ArrayPtr.alloc (max m (2 * v.size_)) : List α) 0 v.size_ with
    | error e => rw [hc] at hR; cases hR
    | ok a =>
      rw [hc, ok_bind] at hR
      cases hf : fill_default a v.size_ (m - v.size_) with
      | error e => rw [hf] at hR; cases hR
      | ok b =>
        rw [hf, ok_bind] at hR
        cases hR
        refine ⟨fun _ => by omega, fun _ => rfl, ?_, ?_⟩
        · show v.capacity_ ≤ max m (2 * v.size_)
          omega
        · show m ≤ max m (2 * v.size_)
          omega

/-- C6, at an array of size 3 and capacity 4: `Resize(4)` and `Resize(1)` keep the
capacity 4, `Resize(5)` sets it to `max 5 6 = 6`. -/
theorem Resize_capacity_witness :
    (3 : Nat) ≤ 4 ∧
    (∃ v', Resize (⟨[1, 2, 3, 0], 3, 4⟩ : SimpleVector Nat) 4 = .ok v' ∧ v'.capacity_ = 4) ∧
    (∃ v', Resize (⟨[1, 2, 3, 0], 3, 4⟩ : SimpleVector Nat) 1 = .ok v' ∧ v'.capacity_ = 4) ∧
    (∃ v', Resize (⟨[1, 2, 3, 0], 3, 4⟩ : SimpleVector Nat) 5 = .ok v' ∧ v'.capacity_ = 6) := by
  refine ⟨by decide, ?_, ?_, ?_⟩
  · obtain ⟨v', hv⟩ :=
      (Resize_capacity (⟨[1, 2, 3, 0], 3, 4⟩ : SimpleVector Nat) 4 (by decide)).2 (by decide)
    exact ⟨v', hv,
      ((Resize_capacity (⟨[1, 2, 3, 0], 3, 4⟩ : SimpleVector Nat) 4 (by decide)).1 v' hv).1
        (by decide)⟩
  · obtain ⟨v', hv⟩ :=
      (Resize_capacity (⟨[1, 2, 3, 0], 3, 4⟩ : SimpleVector Nat) 1 (by decide)).2 (by decide)
    exact ⟨v', hv,
      ((Resize_capacity (⟨[1, 2, 3, 0], 3, 4⟩ : SimpleVector Nat) 1 (by decide)).1 v' hv).1
        (by decide)⟩
  · obtain ⟨v', hv⟩ :=
      (Resize_capacity (⟨[1, 2, 3, 0], 3, 4⟩ : SimpleVector Nat) 5 (by decide)).2 (by decide)
    exact ⟨v', hv,
      ((Resize_capacity (⟨[1, 2, 3, 0], 3, 4⟩ : SimpleVector Nat) 5 (by decide)).1 v' hv).2.1
        (by decide)⟩

/-- C7: on a well-formed array, `Reserve(k)` with `k ≤ capacity` returns the array
as it was; with `k > capacity` it returns an array of capacity exactly `k`
(backed by a block of `k` slots) whose size and live elements are the old ones. -/
theorem Reserve_frame [Inhabited α] (v : SimpleVector α) (k : Nat) (h : WellFormed v) :
    (k ≤ v.capacity_ → Reserve v k = .ok v) ∧
    (v.capacity_ < k → ∃ v', Reserve v k = .ok v' ∧ v'.capacity_ = k ∧
      v'.size_ = v.size_ ∧ live v' = live v ∧ WellFormed v') := by
  obtain ⟨hsc, hcl⟩ := h
  refine ⟨fun hk => by simp [Reserve, hk], fun hk => ?_⟩
  unfold Reserve
  rw [if_neg (by omega)]
  dsimp only
  rw [copy_elements_ok _ _ _ _ (by omega) (by simp [ArrayPtr.alloc]; omega), ok_bind]
  refine ⟨_, rfl, rfl, rfl, ?_, ⟨by simp; omega, by simp [ArrayPtr.alloc]; omega⟩⟩
  apply List.ext_getElem?
  intro j
  simp [live, ArrayPtr.alloc, List.getElem?_append, List.getElem?_take, List.getElem?_drop,
    List.getElem?_replicate]
  split_ifs <;> first | rfl | omega

/-- C7, at the array `[1, 2]` with capacity 3: `Reserve(2)` changes nothing,
`Reserve(5)` gives capacity 5 and the same live sequence. -/
theorem Reserve_frame_witness :
    WellFormed (⟨[1, 2, 9], 2, 3⟩ : SimpleVector Nat) ∧
    Reserve (⟨[1, 2, 9], 2, 3⟩ : SimpleVector Nat) 2 = .ok ⟨[1, 2, 9], 2, 3⟩ ∧
    ∃ v', Reserve (⟨[1, 2, 9], 2, 3⟩ : SimpleVector Nat) 5 = .ok v' ∧ v'.capacity_ = 5 ∧
      v'.size_ = 2 ∧ live v' = live (⟨[1, 2, 9], 2, 3⟩ : SimpleVector Nat) ∧ WellFormed v' :=
  ⟨by decide,
   (Reserve_frame (⟨[1, 2, 9], 2, 3⟩ : SimpleVector Nat) 2 (by decide)).1 (by decide),
   (Reserve_frame (⟨[1, 2, 9], 2, 3⟩ : SimpleVector Nat) 5 (by decide)).2 (by decide)⟩

/-- C8: `Clear` sets the size to 0 and keeps the capacity, on every array; on a
well-formed array of capacity at least 1, `Clear` followed by `PushBack(x)`
returns an array with live sequence `[x]`, the capacity it had before `Clear`,
and the old block with only slot 0 overwritten (nothing was reallocated). -/
theorem Clear_then_PushBack [Inhabited α] (v : SimpleVector α) (x : α) :
    (Clear v).size_ = 0 ∧ (Clear v).capacity_ = v.capacity_ ∧
    (WellFormed v → 1 ≤ v.capacity_ →
      ∃ v', PushBack (Clear v) (.outside x) = .ok v' ∧ live v' = [x] ∧
        v'.capacity_ = v.capacity_ ∧ v'.elements_ = v.elements_.set 0 x) := by
  refine ⟨rfl, rfl, fun h hc => ?_⟩
  obtain ⟨hsc, hcl⟩ := h
  have hpos : 0 < v.elements_.length := by omega
  have hR : Resize (Clear v) 1 = .ok ⟨v.elements_.set 0 default, 1, v.capacity_⟩ := by
    unfold Resize
    simp only [Clear]
    rw [if_neg (by omega), if_neg (by omega), if_pos hc]
    simp only [Nat.sub_zero, fill_default, write_ok _ _ _ hpos, ok_bind]
  refine ⟨⟨v.elements_.set 0 x, 1, v.capacity_⟩, ?_, ?_, rfl, rfl⟩
  · unfold PushBack
    have h0 : (Clear v).size_ + 1 = 1 := rfl
    rw [h0, hR, ok_bind, read_outside, ok_bind]
    simp only [Nat.sub_self]
    rw [write_ok _ _ _ (by simp; omega), ok_bind]
    simp
  · cases hv : v.elements_ with
    | nil => rw [hv] at hpos; simp at hpos
    | cons a t => simp [live]

/-- C8, at the array `[1, 2, 3]` with capacity 4 and the value 9. -/
theorem Clear_then_PushBack_witness :
    (Clear (⟨[1, 2, 3, 0], 3, 4⟩ : SimpleVector Nat)).size_ = 0 ∧
    (Clear (⟨[1, 2, 3, 0], 3, 4⟩ : SimpleVector Nat)).capacity_ = 4 ∧
    ∃ v', PushBack (Clear (⟨[1, 2, 3, 0], 3, 4⟩ : SimpleVector Nat)) (.outside 9) = .ok v' ∧
      live v' = [9] ∧ v'.capacity_ = 4 ∧ v'.elements_ = [9, 2, 3, 0] :=
  ⟨(Clear_then_PushBack (⟨[1, 2, 3, 0], 3, 4⟩ : SimpleVector Nat) 9).1,
   (Clear_then_PushBack (⟨[1, 2, 3, 0], 3, 4⟩ : SimpleVector Nat) 9).2.1,
   (Clear_then_PushBack (⟨[1, 2, 3, 0], 3, 4⟩ : SimpleVector Nat) 9).2.2
     (by decide) (by decide)⟩

/-- C3: on a well-formed array with live sequence `L` and a position `n < size`,
`Erase(begin + n)` returns position `n`, leaves the live sequence `L` without
its element at index `n`, makes the size one smaller and keeps the capacity; the
returned position holds the element that followed the erased one, and is `end`
when the last element was erased. -/
theorem Erase_removes [Inhabited α] (mv : α → α) (v : SimpleVector α) (n : Nat)
    (h : WellFormed v) (hn : n < v.size_) :
    ∃ v', Erase mv v n = .ok (v', n) ∧ live v' = (live v).eraseIdx n ∧
      v'.size_ + 1 = v.size_ ∧ v'.capacity_ = v.capacity_ ∧
      (live v')[n]? = (live v)[n + 1]? ∧ (n + 1 = v.size_ → n = v'.size_) := by
  obtain ⟨hsc, hcl⟩ := h
  obtain ⟨r, hr, hlen, hpt⟩ := move_forward_loop_ok mv (v.size_ - (n + 1)) v.elements_
    (n + 1) n rfl (by omega)
  have hlive : (List.take (v.size_ - 1) r) = (live v).eraseIdx n := by
    apply List.ext_getElem?
    intro j
    rw [List.getElem?_eraseIdx, List.getElem?_take, hpt j]
    simp only [live_getElem?]
    split_ifs <;> first | rfl | omega
  refine ⟨⟨r, v.size_ - 1, v.capacity_⟩, ?_, hlive, ?_, rfl, ?_, ?_⟩
  · unfold Erase
    rw [if_neg (by omega)]
    dsimp only
    rw [hr, ok_bind]
    unfold Resize
    dsimp only
    rw [if_neg (by omega), if_pos (by omega), ok_bind]
  · show v.size_ - 1 + 1 = v.size_
    omega
  · show (List.take (v.size_ - 1) r)[n]? = _
    rw [hlive, List.getElem?_eraseIdx, if_neg (by omega)]
  · intro he
    show n = v.size_ - 1
    omega

/-- C3, erasing index 1 of `[1, 2, 3, 4]`: the live sequence becomes `[1, 3, 4]`
and the returned position 1 holds 3; the moved-from slot is marked 77. -/
theorem Erase_removes_witness :
    WellFormed (⟨[1, 2, 3, 4], 4, 4⟩ : SimpleVector Nat) ∧ 1 < 4 ∧
    Erase (fun _ => 77) (⟨[1, 2, 3, 4], 4, 4⟩ : SimpleVector Nat) 1 =
      .ok (⟨[1, 3, 4, 77], 3, 4⟩, 1) ∧
    ∃ v', Erase (fun _ => 77) (⟨[1, 2, 3, 4], 4, 4⟩ : SimpleVector Nat) 1 = .ok (v', 1) ∧
      live v' = [1, 3, 4] ∧ v'.size_ + 1 = 4 ∧ v'.capacity_ = 4 ∧
      (live v')[1]? = some 3 ∧ (1 + 1 = 4 → 1 = v'.size_) :=
  ⟨by decide, by decide, by decide,
   Erase_removes (fun _ => 77) (⟨[1, 2, 3, 4], 4, 4⟩ : SimpleVector Nat) 1
     (by decide) (by decide)⟩

/-- C2, on the range of positions an `int` can hold and for a value that is no
element of the array: on a well-formed array with live sequence `L`, for a
position `n ≤ size` with `n < 2^31`, each `Insert` overload returns position `n`
and leaves the live sequence `L.take n ++ [x] ++ L.drop n` with the size one
larger; at `n = size` the array is the one `PushBack(x)` returns. -/
theorem Insert_below_int_max [Inhabited α] (mv : α → α) (v : SimpleVector α) (n : Nat)
    (x : α) (h : WellFormed v) (hn : n ≤ v.size_) (hsmall : n < 2 ^ 31) :
    (∃ v', Insert v n (.outside x) = .ok (v', n) ∧
      live v' = (live v).take n ++ [x] ++ (live v).drop n ∧ v'.size_ = v.size_ + 1 ∧
      (n = v.size_ → PushBack v (.outside x) = .ok v')) ∧
    (∃ v', InsertMove mv v n (.outside x) = .ok (v', n) ∧
      live v' = (live v).take n ++ [x] ++ (live v).drop n ∧ v'.size_ = v.size_ + 1 ∧
      (n = v.size_ → PushBack v (.outside x) = .ok v')) := by
  have hi := narrow_int_small n hsmall
  have hvlen : v.size_ ≤ v.elements_.length := by have := h.1; have := h.2; omega
  by_cases he : n = v.size_
  · subst he
    obtain ⟨v', hP, hI, hM⟩ := Insert_end mv v v.size_ x h hi
    obtain ⟨w, hP', _, hsz, _, hlive⟩ := PushBack_ok v x h
    rw [hP] at hP'
    cases hP'
    have hl : live v' = (live v).take v.size_ ++ [x] ++ (live v).drop v.size_ := by
      rw [hlive, List.take_of_length_le (by rw [live_length v hvlen]),
        List.drop_of_length_le (by rw [live_length v hvlen])]
      simp
    exact ⟨⟨v', hI, hl, hsz, fun _ => hP⟩, ⟨v', hM, hl, hsz, fun _ => hP⟩⟩
  · obtain ⟨v', hI, _, hsz, _, hlive⟩ := Insert_at v n n x h (by omega) hi
    obtain ⟨w, hM, _, hsz', _, hlive'⟩ := InsertMove_at mv v n n x h (by omega) hi
    exact ⟨⟨v', hI, hlive, hsz, fun hc => absurd hc he⟩,
      ⟨w, hM, hlive', hsz', fun hc => absurd hc he⟩⟩

/-- C2, the two examples of the specification: inserting 1 at `begin` of
`[2, 3, 4]` and 4 at `end` of `[1, 2, 3]` both give `[1, 2, 3, 4]`, the second
being the array `PushBack(4)` returns. -/
theorem Insert_below_int_max_examples :
    (∃ v', Insert (⟨[2, 3, 4], 3, 3⟩ : SimpleVector Nat) 0 (.outside 1) = .ok (v', 0) ∧
      live v' = [1, 2, 3, 4] ∧ v'.size_ = 3 + 1 ∧
      (0 = 3 → PushBack (⟨[2, 3, 4], 3, 3⟩ : SimpleVector Nat) (.outside 1) = .ok v')) ∧
    (∃ v', Insert (⟨[1, 2, 3], 3, 3⟩ : SimpleVector Nat) 3 (.outside 4) = .ok (v', 3) ∧
      live v' = [1, 2, 3, 4] ∧ v'.size_ = 3 + 1 ∧
      (3 = 3 → PushBack (⟨[1, 2, 3], 3, 3⟩ : SimpleVector Nat) (.outside 4) = .ok v')) :=
  ⟨(Insert_below_int_max id (⟨[2, 3, 4], 3, 3⟩ : SimpleVector Nat) 0 1
      (by decide) (by decide) (by decide)).1,
   (Insert_below_int_max id (⟨[1, 2, 3], 3, 3⟩ : SimpleVector Nat) 3 4
      (by decide) (by decide) (by decide)).1⟩

/-- C2: the failing input.  On the well-formed array of `2^32 + 1` zeros,
`Insert(begin() + 2^32, 1)` narrows the position to the `int` 0: it returns
position 0 and puts the new element in front of the whole sequence, instead of
returning position `2^32` and keeping the first `2^32` elements in place. -/
theorem Insert_narrows_position :
    WellFormed (⟨List.replicate (2 ^ 32 + 1) 0, 2 ^ 32 + 1, 2 ^ 32 + 1⟩ : SimpleVector Nat) ∧
    ∃ v', Insert (⟨List.replicate (2 ^ 32 + 1) 0, 2 ^ 32 + 1, 2 ^ 32 + 1⟩ : SimpleVector Nat)
        (2 ^ 32) (.outside 1) = .ok (v', 0) ∧
      live v' = 1 :: List.replicate (2 ^ 32 + 1) 0 := by
  have hwf : ∀ N : Nat, WellFormed (⟨List.replicate N 0, N, N⟩ : SimpleVector Nat) :=
    fun N => ⟨le_refl _, (List.length_replicate N 0).symm⟩
  have hlive : ∀ N : Nat, live (⟨List.replicate N 0, N, N⟩ : SimpleVector Nat) =
      List.replicate N 0 := by
    intro N
    show List.take N (List.replicate N 0) = _
    exact List.take_of_length_le (by rw [List.length_replicate])
  refine ⟨hwf _, ?_⟩
  obtain ⟨v', hI, _, _, _, hl⟩ := Insert_at
    (⟨List.replicate (2 ^ 32 + 1) 0, 2 ^ 32 + 1, 2 ^ 32 + 1⟩ : SimpleVector Nat) (2 ^ 32) 0 1
    (hwf _) (Nat.lt_succ_self _) (by decide)
  refine ⟨v', hI, ?_⟩
  rw [hl, hlive, List.take_zero, List.drop_zero]
  rfl

/-- C2, a second failing input: a value that is an element of the array.  On
`[10, 20, 30]` with capacity 4, `v.Insert(v.begin(), v[1])` reads `value` after
the shift has overwritten slot 1, and stores 10 instead of 20; on the full array
`[10, 20, 30]` with capacity 3 it reads `value` from the released block. -/
theorem Insert_reads_shifted_slot :
    Insert (⟨[10, 20, 30, 0], 3, 4⟩ : SimpleVector Nat) 0 (.element 1) =
      .ok (⟨[10, 10, 20, 30], 4, 4⟩, 0) ∧
    Insert (⟨[10, 20, 30, 0], 3, 4⟩ : SimpleVector Nat) 0 (.outside 20) =
      .ok (⟨[20, 10, 20, 30], 4, 4⟩, 0) ∧
    Insert (⟨[10, 20, 30], 3, 3⟩ : SimpleVector Nat) 0 (.element 1) = .error .dangling ∧
    InsertMove id (⟨[10, 20, 30], 3, 3⟩ : SimpleVector Nat) 0 (.element 1) =
      .error .dangling :=
  ⟨by decide, by decide, by decide, by decide⟩

/-- What `operator==` computes when the right operand's block has at least
`lhs.size` slots: it compares the live sequence of `lhs` with the first
`lhs.size` slots of `rhs`, and never looks at `rhs.size`. -/
theorem operator_eq_compares_slots [DecidableEq α] (a b : SimpleVector α)
    (ha : a.size_ ≤ a.elements_.length) (hb : a.size_ ≤ b.elements_.length) :
    operator_eq a b = .ok (decide (live a = b.elements_.take a.size_)) := by
  unfold operator_eq
  rw [std_equal_ok _ _ _ _ (by omega) (by omega)]
  rfl

/-- C9: the failing input.  `b` is built from the literal `[1, 2, 3]` and `a` from
the same literal followed by `PushBack(4)`.  Their live sequences differ, yet
`b == a` returns true and `b != a` false (only the three elements of `b` are
compared), and `a == b` reads slot 3 of the three-slot block of `b`. -/
theorem operator_eq_ignores_rhs_size :
    ∃ a b : SimpleVector Nat,
      from_init [1, 2, 3] = .ok b ∧
      (from_init [1, 2, 3] >>= fun v => PushBack v (.outside 4)) = .ok a ∧
      live a = [1, 2, 3, 4] ∧ live b = [1, 2, 3] ∧
      operator_eq b a = .ok true ∧ operator_ne b a = .ok false ∧
      operator_eq a b = .error .overrun :=
  ⟨⟨[1, 2, 3, 4, 0, 0], 4, 6⟩, ⟨[1, 2, 3], 3, 3⟩, by decide, by decide, by decide, by decide,
    by decide, by decide, by decide⟩

/-- C10: for arrays `a`, `b` over a linearly ordered type whose live elements lie
inside their blocks, `a < b` returns, and returns true exactly when the live
sequence of `a` is lexicographically smaller than the live sequence of `b`
(whatever the slots past the sizes hold); `a > b` is the outcome of `b < a`,
`a <= b` the negation of `b < a`, and `a >= b` the negation of `a < b`. -/
theorem operator_lt_lexicographic [LinearOrder α] (a b : SimpleVector α)
    (ha : a.size_ ≤ a.elements_.length) (hb : b.size_ ≤ b.elements_.length) :
    ∃ lt_ab lt_ba : Bool,
      operator_lt a b = .ok lt_ab ∧ operator_lt b a = .ok lt_ba ∧
      (lt_ab = true ↔ List.Lex (fun (x y : α) => x < y) (live a) (live b)) ∧
      (lt_ba = true ↔ List.Lex (fun (x y : α) => x < y) (live b) (live a)) ∧
      operator_gt a b = .ok lt_ba ∧ operator_le a b = .ok (!lt_ba) ∧
      operator_ge a b = .ok (!lt_ab) := by
  obtain ⟨r1, h1, e1⟩ := lexicographical_compare_ok (min a.size_ b.size_) a.elements_
    b.elements_ a.size_ b.size_ 0 ha hb (by omega)
  obtain ⟨r2, h2, e2⟩ := lexicographical_compare_ok (min b.size_ a.size_) b.elements_
    a.elements_ b.size_ a.size_ 0 hb ha (by omega)
  rw [List.drop_zero, List.drop_zero] at e1 e2
  have hab : operator_lt a b = .ok r1 := h1
  have hba : operator_lt b a = .ok r2 := h2
  refine ⟨r1, r2, hab, hba, e1, e2, hba, ?_, ?_⟩
  · unfold operator_le
    rw [hba, ok_bind]
  · unfold operator_ge
    rw [hab, ok_bind]

/-- C10, at `a` with live sequence `[1, 2]` and a stale slot 9, and `b = [1, 2, 3]`:
the proper prefix `a` is smaller than `b`, and the stale 9 is not consulted. -/
theorem operator_lt_lexicographic_witness :
    operator_lt (⟨[1, 2, 9], 2, 3⟩ : SimpleVector Nat) ⟨[1, 2, 3], 3, 3⟩ = .ok true ∧
    operator_lt (⟨[1, 2, 3], 3, 3⟩ : SimpleVector Nat) ⟨[1, 2, 9], 2, 3⟩ = .ok false ∧
    ∃ lt_ab lt_ba : Bool,
      operator_lt (⟨[1, 2, 9], 2, 3⟩ : SimpleVector Nat) ⟨[1, 2, 3], 3, 3⟩ = .ok lt_ab ∧
      operator_lt (⟨[1, 2, 3], 3, 3⟩ : SimpleVector Nat) ⟨[1, 2, 9], 2, 3⟩ = .ok lt_ba ∧
      (lt_ab = true ↔ List.Lex (fun (x y : Nat) => x < y) [1, 2] [1, 2, 3]) ∧
      (lt_ba = true ↔ List.Lex (fun (x y : Nat) => x < y) [1, 2, 3] [1, 2]) ∧
      operator_gt (⟨[1, 2, 9], 2, 3⟩ : SimpleVector Nat) ⟨[1, 2, 3], 3, 3⟩ = .ok lt_ba ∧
      operator_le (⟨[1, 2, 9], 2, 3⟩ : SimpleVector Nat) ⟨[1, 2, 3], 3, 3⟩ = .ok (!lt_ba) ∧
      operator_ge (⟨[1, 2, 9], 2, 3⟩ : SimpleVector Nat) ⟨[1, 2, 3], 3, 3⟩ = .ok (!lt_ab) :=
  ⟨by decide, by decide,
   operator_lt_lexicographic (⟨[1, 2, 9], 2, 3⟩ : SimpleVector Nat) ⟨[1, 2, 3], 3, 3⟩
     (by decide) (by decide)⟩

/-! ## Construction, copying and moving -/

theorem std_fill_ok (x : α) (trips : Nat) : ∀ (block : List α) (first : Nat),
    first + trips ≤ block.length →
    std_fill block first x trips =
      .ok (block.take first ++ List.replicate trips x ++ block.drop (first + trips)) := by
  induction trips with
  | zero => intro block first _; simp [std_fill]
  | succ k ih =>
    intro block first h
    have hit : first < block.length := by omega
    rw [std_fill, write_ok _ _ _ hit, ok_bind, ih _ _ (by simp; omega)]
    congr 1
    apply List.ext_getElem?
    intro j
    simp [List.getElem?_append, List.getElem?_take, List.getElem?_drop, List.getElem?_set,
      List.getElem?_replicate]
    split_ifs <;> first | rfl | omega | (congr 1; omega)

theorem from_size_ok [Inhabited α] (n : Nat) :
    (from_size n : Except Fault (SimpleVector α)) =
      .ok { elements_ := List.replicate n default, size_ := n, capacity_ := n } := by
  unfold from_size
  rw [std_fill_ok _ _ _ _ (by simp [ArrayPtr.alloc]), ok_bind]
  simp [ArrayPtr.alloc]

theorem from_size_value_ok [Inhabited α] (n : Nat) (x : α) :
    from_size_value n x =
      .ok { elements_ := List.replicate n x, size_ := n, capacity_ := n } := by
  unfold from_size_value
  by_cases h : n = 0
  · subst h
    simp [ArrayPtr.alloc]
  · rw [if_neg h, std_fill_ok _ _ _ _ (by simp [ArrayPtr.alloc]), ok_bind]
    simp [ArrayPtr.alloc]

theorem from_init_ok [Inhabited α] (init : List α) :
    from_init init = .ok { elements_ := init, size_ := init.length, capacity_ := init.length } := by
  unfold from_init
  rw [copy_elements_ok _ _ _ _ (by omega) (by simp [ArrayPtr.alloc]), ok_bind]
  simp [ArrayPtr.alloc]

/-- C11: the constructor from a count `n` returns an array with
`size = capacity = n` whose live elements are `n` default values; the
constructor from `(n, x)` one whose live elements are `n` copies of `x` (the
empty array when `n = 0`); the constructor from a literal sequence one with
`size = capacity =` its length and the literal as live sequence.  Each block has
exactly `capacity` slots. -/
theorem constructors_fill [Inhabited α] :
    (∀ n : Nat, ∃ v : SimpleVector α, from_size n = .ok v ∧ v.size_ = n ∧ v.capacity_ = n ∧
      live v = List.replicate n default ∧ WellFormed v) ∧
    (∀ (n : Nat) (x : α), ∃ v : SimpleVector α, from_size_value n x = .ok v ∧ v.size_ = n ∧
      v.capacity_ = n ∧ live v = List.replicate n x ∧ WellFormed v ∧ (n = 0 → v = empty)) ∧
    (∀ init : List α, ∃ v : SimpleVector α, from_init init = .ok v ∧ v.size_ = init.length ∧
      v.capacity_ = init.length ∧ live v = init ∧ WellFormed v) := by
  refine ⟨fun n => ⟨_, from_size_ok n, rfl, rfl, ?_, ?_⟩,
    fun n x => ⟨_, from_size_value_ok n x, rfl, rfl, ?_, ?_, ?_⟩,
    fun init => ⟨_, from_init_ok init, rfl, rfl, ?_, ?_⟩⟩
  · simp [live]
  · exact ⟨le_refl _, by simp⟩
  · simp [live]
  · exact ⟨le_refl _, by simp⟩
  · intro h
    subst h
    rfl
  · simp [live]
  · exact ⟨le_refl _, rfl⟩

/-- C11, at the count 3, at `(2, 7)`, at `(0, 7)` and at the literal `[4, 5, 6]`. -/
theorem constructors_fill_witness :
    (from_size 3 : Except Fault (SimpleVector Nat)) = .ok ⟨[0, 0, 0], 3, 3⟩ ∧
    (from_size_value 2 7 : Except Fault (SimpleVector Nat)) = .ok ⟨[7, 7], 2, 2⟩ ∧
    (from_size_value 0 7 : Except Fault (SimpleVector Nat)) = .ok empty ∧
    (from_init [4, 5, 6] : Except Fault (SimpleVector Nat)) = .ok ⟨[4, 5, 6], 3, 3⟩ ∧
    (∃ v : SimpleVector Nat, from_init [4, 5, 6] = .ok v ∧ v.size_ = 3 ∧ v.capacity_ = 3 ∧
      live v = [4, 5, 6] ∧ WellFormed v) :=
  ⟨by decide, by decide, by decide, by decide, (@constructors_fill Nat _).2.2 [4, 5, 6]⟩

/-! ## Sequences of `PushBack` -/

theorem push_all_append [Inhabited α] (xs ys : List (Ref α)) : ∀ v : SimpleVector α,
    push_all v (xs ++ ys) = (push_all v xs >>= fun w => push_all w ys) := by
  induction xs with
  | nil => intro v; rfl
  | cons x xs ih =>
    intro v
    simp only [List.cons_append, push_all]
    cases hP : PushBack v x with
    | error e => rfl
    | ok v1 =>
      rw [ok_bind, ok_bind]
      exact ih v1

theorem push_all_ok [Inhabited α] (xs : List α) : ∀ v : SimpleVector α, WellFormed v →
    ∃ w, push_all v (xs.map Ref.outside) = .ok w ∧ WellFormed w ∧
      w.size_ = v.size_ + xs.length ∧
      live w = live v ++ xs ∧ v.capacity_ ≤ w.capacity_ ∧
      (v.size_ + xs.length ≤ v.capacity_ → w.capacity_ = v.capacity_) := by
  induction xs with
  | nil =>
    intro v h
    exact ⟨v, rfl, h, rfl, by simp, le_refl _, fun _ => rfl⟩
  | cons x xs ih =>
    intro v h
    obtain ⟨v1, hP, hwf1, hsz1, hcap1, hlive1⟩ := PushBack_ok v x h
    obtain ⟨w, hw, hwf, hsz, hlive, hmono, hkeep⟩ := ih v1 hwf1
    have hc1 : v.capacity_ ≤ v1.capacity_ := by
      rw [hcap1]
      split_ifs <;> omega
    refine ⟨w, ?_, hwf, ?_, ?_, le_trans hc1 hmono, ?_⟩
    · rw [List.map_cons, push_all, hP, ok_bind, hw]
    · rw [hsz, hsz1, List.length_cons]
      omega
    · rw [hlive, hlive1]
      simp
    · intro hfit
      rw [List.length_cons] at hfit
      have e1 : v1.capacity_ = v.capacity_ := by
        rw [hcap1, if_pos (by omega)]
      rw [hkeep (by omega), e1]

theorem take_succ_of_getElem? (l : List α) (k : Nat) (x : α) (h : l[k]? = some x) :
    l.take (k + 1) = l.take k ++ [x] := by
  rw [List.take_succ, h]
  rfl

theorem empty_wf : WellFormed (empty : SimpleVector α) :=
  ⟨le_refl _, rfl⟩

/-- What holds of C16: starting from the default-constructed array, `PushBack(x1)`,
..., `PushBack(xn)` of objects that are no elements of the array all return;
afterwards the size is `n` and the live sequence is `[x1, ..., xn]`; and for
each `k < n` the capacity after the `(k+1)`-th `PushBack` is at least the
capacity before it. -/
theorem push_all_outside_from_empty [Inhabited α] (xs : List α) :
    ∃ v : SimpleVector α, push_all empty (xs.map Ref.outside) = .ok v ∧
      v.size_ = xs.length ∧ live v = xs ∧
      ∀ k, k < xs.length → ∃ (a b : SimpleVector α) (x : α), xs[k]? = some x ∧
        push_all empty ((xs.take k).map Ref.outside) = .ok a ∧
        PushBack a (.outside x) = .ok b ∧
        push_all empty ((xs.take (k + 1)).map Ref.outside) = .ok b ∧
        a.capacity_ ≤ b.capacity_ := by
  obtain ⟨v, hv, _, hsz, hlive, _, _⟩ := push_all_ok xs (empty : SimpleVector α) empty_wf
  refine ⟨v, hv, by simpa [empty] using hsz, by simpa [live, empty] using hlive, ?_⟩
  intro k hk
  obtain ⟨x, hx⟩ := exists_getElem? xs k hk
  obtain ⟨a, ha, hwfa, _, _, _, _⟩ := push_all_ok (xs.take k) (empty : SimpleVector α) empty_wf
  obtain ⟨b, hb, _, _, hcap, _⟩ := PushBack_ok a x hwfa
  refine ⟨a, b, x, hx, ha, hb, ?_, ?_⟩
  · rw [take_succ_of_getElem? xs k x hx, List.map_append, push_all_append, ha, ok_bind,
      List.map_cons, push_all, hb, ok_bind]
    rfl
  · rw [hcap]
    split_ifs <;> omega

/-- The same for the five values 1, ..., 5: the capacities met are 1, 2, 4, 4, 8. -/
theorem push_all_outside_from_empty_example :
    push_all (empty : SimpleVector Nat) ([1, 2, 3, 4, 5].map Ref.outside) =
      .ok ⟨[1, 2, 3, 4, 5, 0, 0, 0], 5, 8⟩ ∧
    ∃ v : SimpleVector Nat, push_all empty ([1, 2, 3, 4, 5].map Ref.outside) = .ok v ∧
      v.size_ = 5 ∧ live v = [1, 2, 3, 4, 5] ∧
      ∀ k, k < 5 → ∃ (a b : SimpleVector Nat) (x : Nat), [1, 2, 3, 4, 5][k]? = some x ∧
        push_all empty (([1, 2, 3, 4, 5].take k).map Ref.outside) = .ok a ∧
        PushBack a (.outside x) = .ok b ∧
        push_all empty (([1, 2, 3, 4, 5].take (k + 1)).map Ref.outside) = .ok b ∧
        a.capacity_ ≤ b.capacity_ :=
  ⟨by decide, push_all_outside_from_empty [1, 2, 3, 4, 5]⟩

/-- C16: the failing input.  From the default-constructed array, `v.PushBack(7);
v.PushBack(v[0]);` should leave the live sequence `[7, 7]`; the second call finds
`size = capacity = 1`, reallocates, releases the block `item` refers into and
then reads `item`.  With the second value passed from outside the array the
live sequence is `[7, 7]`. -/
theorem push_all_reads_released_block :
    push_all (empty : SimpleVector Nat) [.outside 7] = .ok ⟨[7], 1, 1⟩ ∧
    PushBack (⟨[7], 1, 1⟩ : SimpleVector Nat) (.element 0) = .error .dangling ∧
    push_all (empty : SimpleVector Nat) [.outside 7, .element 0] = .error .dangling ∧
    push_all (empty : SimpleVector Nat) [.outside 7, .outside 7] = .ok ⟨[7, 7], 2, 2⟩ :=
  ⟨by decide, by decide, by decide, by decide⟩

theorem doubling_step [Inhabited α] (v : SimpleVector α) (x : α) (hwf : WellFormed v)
    (h : DoublingInv v ∨ (v.size_ = 0 ∧ v.capacity_ = 0)) :
    ∃ v', PushBack v (.outside x) = .ok v' ∧ WellFormed v' ∧ DoublingInv v' ∧
      v'.size_ = v.size_ + 1 := by
  obtain ⟨v', hP, hwf', hsz, hcap, _⟩ := PushBack_ok v x hwf
  refine ⟨v', hP, hwf', ?_, hsz⟩
  rcases h with ⟨k, hk, hle, hlt⟩ | ⟨h0, hc0⟩
  · by_cases hfit : v.size_ + 1 ≤ v.capacity_
    · rw [if_pos hfit] at hcap
      exact ⟨k, by rw [hcap, hk], by omega, by omega⟩
    · rw [if_neg hfit] at hcap
      refine ⟨k + 1, ?_, ?_, ?_⟩ <;> rw [pow_succ] <;> omega
  · rw [h0, hc0] at hcap
    refine ⟨0, ?_, ?_, ?_⟩
    · rw [hcap]
      rfl
    · rw [hsz, h0]
      rfl
    · rw [hsz, h0]
      decide

theorem doubling_push_all [Inhabited α] (xs : List α) : ∀ v : SimpleVector α, WellFormed v →
    DoublingInv v →
    ∃ w, push_all v (xs.map Ref.outside) = .ok w ∧ DoublingInv w ∧
      w.size_ = v.size_ + xs.length := by
  induction xs with
  | nil => intro v _ h; exact ⟨v, rfl, h, rfl⟩
  | cons x xs ih =>
    intro v hwf h
    obtain ⟨v1, hP, hwf1, hinv1, hsz1⟩ := doubling_step v x hwf (Or.inl h)
    obtain ⟨w, hw, hinv, hsz⟩ := ih v1 hwf1 hinv1
    refine ⟨w, ?_, hinv, ?_⟩
    · rw [List.map_cons, push_all, hP, ok_bind, hw]
    · rw [hsz, hsz1, List.length_cons]
      omega

/-- C20: starting from the default-constructed array, after `n ≥ 1` successive
`PushBack` calls the capacity is the smallest power of two that is at least `n`:
it is `2^k` with `n ≤ 2^k`, and no power of two below `2^k` is at least `n`. -/
theorem capacity_after_pushes [Inhabited α] (xs : List α) (hn : 1 ≤ xs.length) :
    ∃ (v : SimpleVector α) (k : Nat), push_all empty (xs.map Ref.outside) = .ok v ∧
      v.size_ = xs.length ∧ v.capacity_ = 2 ^ k ∧ xs.length ≤ 2 ^ k ∧
      ∀ j : Nat, xs.length ≤ 2 ^ j → 2 ^ k ≤ 2 ^ j := by
  cases xs with
  | nil => simp at hn
  | cons x xs =>
    obtain ⟨v1, hP, hwf1, hinv1, hsz1⟩ :=
      doubling_step (empty : SimpleVector α) x empty_wf (Or.inr ⟨rfl, rfl⟩)
    obtain ⟨w, hw, ⟨k, hk, hle, hlt⟩, hsz⟩ := doubling_push_all xs v1 hwf1 hinv1
    have hlen : w.size_ = (x :: xs).length := by
      rw [hsz, hsz1, List.length_cons]
      show 0 + 1 + xs.length = xs.length + 1
      omega
    refine ⟨w, k, ?_, hlen, hk, by omega, ?_⟩
    · rw [List.map_cons, push_all, hP, ok_bind, hw]
    · intro j hj
      have h1 : 2 ^ k < 2 ^ (j + 1) := by
        rw [pow_succ]
        omega
      have h2 : k < j + 1 := (Nat.pow_lt_pow_iff_right (by decide)).mp h1
      exact Nat.pow_le_pow_right (by decide) (by omega)

/-- C20, for `n = 5`: the capacity is `8 = 2^3`. -/
theorem capacity_after_pushes_witness :
    (1 : Nat) ≤ [1, 2, 3, 4, 5].length ∧
    push_all (empty : SimpleVector Nat) ([1, 2, 3, 4, 5].map Ref.outside) =
      .ok ⟨[1, 2, 3, 4, 5, 0, 0, 0], 5, 8⟩ ∧
    ∃ (v : SimpleVector Nat) (k : Nat),
      push_all empty ([1, 2, 3, 4, 5].map Ref.outside) = .ok v ∧
      v.size_ = [1, 2, 3, 4, 5].length ∧ v.capacity_ = 2 ^ k ∧
      [1, 2, 3, 4, 5].length ≤ 2 ^ k ∧
      ∀ j : Nat, [1, 2, 3, 4, 5].length ≤ 2 ^ j → 2 ^ k ≤ 2 ^ j :=
  ⟨by decide, by decide, capacity_after_pushes [1, 2, 3, 4, 5] (by decide)⟩

/-! ## Copy and move -/

theorem copy_ctor_ok [Inhabited α] (v : SimpleVector α) (h : v.size_ ≤ v.elements_.length) :
    copy_ctor v = .ok { elements_ := live v, size_ := v.size_, capacity_ := v.capacity_ } := by
  unfold copy_ctor
  rw [copy_elements_ok _ _ _ _ (by omega) (by simp [ArrayPtr.alloc]), ok_bind]
  simp [ArrayPtr.alloc, live]

/-- C14: move construction from `s` gives a new array with the block, the size
and the capacity of `s` (hence its live sequence), and leaves `s` with
`size = 0` and `capacity = 0`, whatever the moved-from `ArrayPtr` holds. -/
theorem move_ctor_transfers (left_behind : List α → List α) (s : SimpleVector α) :
    (move_ctor left_behind s).1.size_ = s.size_ ∧
    (move_ctor left_behind s).1.capacity_ = s.capacity_ ∧
    live (move_ctor left_behind s).1 = live s ∧
    (move_ctor left_behind s).1.elements_ = s.elements_ ∧
    (move_ctor left_behind s).2.size_ = 0 ∧
    (move_ctor left_behind s).2.capacity_ = 0 :=
  ⟨rfl, rfl, rfl, rfl, rfl, rfl⟩

/-- C14, moving from `[1, 2, 3]` with capacity 4. -/
theorem move_ctor_transfers_witness :
    move_ctor (fun _ => []) (⟨[1, 2, 3, 0], 3, 4⟩ : SimpleVector Nat) =
      (⟨[1, 2, 3, 0], 3, 4⟩, ⟨[], 0, 0⟩) ∧
    live (move_ctor (fun _ => []) (⟨[1, 2, 3, 0], 3, 4⟩ : SimpleVector Nat)).1 = [1, 2, 3] :=
  ⟨by decide, (move_ctor_transfers (fun _ => []) (⟨[1, 2, 3, 0], 3, 4⟩ : SimpleVector Nat)).2.2.1⟩

/-- What the copy constructor does hold to: for an array whose live elements lie
inside its block, the copy has the same size, capacity value and live sequence,
and a block of exactly `size` slots. -/
theorem copy_ctor_fields [Inhabited α] (v : SimpleVector α) (h : v.size_ ≤ v.elements_.length) :
    ∃ c, copy_ctor v = .ok c ∧ c.size_ = v.size_ ∧ c.capacity_ = v.capacity_ ∧
      live c = live v ∧ c.elements_.length = v.size_ := by
  refine ⟨_, copy_ctor_ok v h, rfl, rfl, ?_, ?_⟩
  · simp [live]
  · simp [live, h]

/-- C13: the failing input.  `v` has live sequence `[1, 2]` and capacity 3; its
copy `c` has size 2, capacity 3 and a block of 2 slots.  `PushBack`, `Resize(3)`
and `Insert` at `begin` on `c` all write slot 2 of that block, outside it. -/
theorem copy_then_mutate_overruns :
    ∃ c : SimpleVector Nat, copy_ctor (⟨[1, 2, 0], 2, 3⟩ : SimpleVector Nat) = .ok c ∧
      c.size_ = 2 ∧ c.capacity_ = 3 ∧ live c = [1, 2] ∧ c.elements_.length = 2 ∧
      PushBack c (.outside 9) = .error .overrun ∧ Resize c 3 = .error .overrun ∧
      Insert c 0 (.outside 9) = .error .overrun ∧
      InsertMove id c 0 (.outside 9) = .error .overrun :=
  ⟨⟨[1, 2], 2, 3⟩, by decide, rfl, rfl, by decide, rfl, by decide, by decide, by decide,
    by decide⟩

/-- Move assignment never changes its right operand: whenever it returns, the
right operand is what it was, and the left operand has the size, the capacity
and the live sequence of the right operand. -/
theorem move_assign_copies [Inhabited α] (left_behind : List α → List α)
    (a b : SimpleVector α) (h : b.size_ ≤ b.elements_.length) :
    ∃ a', move_assign left_behind a b = .ok (a', b) ∧ a'.size_ = b.size_ ∧
      a'.capacity_ = b.capacity_ ∧ live a' = live b := by
  unfold move_assign
  rw [copy_ctor_ok b h, ok_bind]
  refine ⟨_, rfl, rfl, rfl, ?_⟩
  simp [swap_rvalue, ArrayPtr.move_assign, live]

/-- C15: the failing input.  After `a = std::move(b)` with `a` empty and
`b = [1, 2, 3]`, `a` holds `[1, 2, 3]` but `b` still has size 3 and its three
elements: the right operand is copied, not emptied. -/
theorem move_assign_keeps_source :
    ∃ a' b' : SimpleVector Nat,
      move_assign (fun _ => []) (empty : SimpleVector Nat) ⟨[1, 2, 3], 3, 3⟩ = .ok (a', b') ∧
      live a' = [1, 2, 3] ∧ b'.size_ = 3 ∧ live b' = [1, 2, 3] :=
  ⟨⟨[1, 2, 3], 3, 3⟩, ⟨[1, 2, 3], 3, 3⟩, by decide, by decide, rfl, by decide⟩

end SimpleVector

/-! ## The reservation hint -/

section ReservationHint

variable {α : Type}

/-- C12: the array constructed from the reservation hint `Reserve(c)` has size 0
and capacity `c`; for every sequence of `k ≤ c` values, pushing them one after
the other returns an array of size `k` whose live sequence is the pushed values
in order and whose capacity is still `c`. -/
theorem reserve_hint_preallocates [Inhabited α] (c : Nat) :
    (SimpleVector.from_reserve (Reserve c) : SimpleVector α).size_ = 0 ∧
    (SimpleVector.from_reserve (Reserve c) : SimpleVector α).capacity_ = c ∧
    ∀ xs : List α, xs.length ≤ c →
      ∃ v, SimpleVector.push_all (SimpleVector.from_reserve (Reserve c))
          (xs.map Ref.outside) = .ok v ∧
        v.size_ = xs.length ∧ SimpleVector.live v = xs ∧ v.capacity_ = c := by
  have hwf : SimpleVector.WellFormed (SimpleVector.from_reserve (Reserve c) : SimpleVector α) :=
    ⟨Nat.zero_le _, by simp [SimpleVector.from_reserve, ArrayPtr.alloc]⟩
  refine ⟨rfl, rfl, fun xs hxs => ?_⟩
  obtain ⟨v, hv, _, hsz, hlive, _, hkeep⟩ := SimpleVector.push_all_ok xs _ hwf
  refine ⟨v, hv, ?_, ?_, ?_⟩
  · rw [hsz]
    show 0 + xs.length = xs.length
    omega
  · rw [hlive]
    simp [SimpleVector.live, SimpleVector.from_reserve]
  · rw [hkeep ?_]
    · rfl
    · show 0 + xs.length ≤ c
      omega

/-- C12, at the hint `Reserve(4)` and the values 1, 2, 3. -/
theorem reserve_hint_preallocates_witness :
    SimpleVector.push_all (SimpleVector.from_reserve (Reserve 4) : SimpleVector Nat)
      ([1, 2, 3].map Ref.outside) = .ok ⟨[1, 2, 3, 0], 3, 4⟩ ∧
    ∃ v, SimpleVector.push_all (SimpleVector.from_reserve (Reserve 4) : SimpleVector Nat)
        ([1, 2, 3].map Ref.outside) = .ok v ∧
      v.size_ = 3 ∧ SimpleVector.live v = [1, 2, 3] ∧ v.capacity_ = 4 :=
  ⟨by decide, (reserve_hint_preallocates 4).2.2 [1, 2, 3] (by decide)⟩

/-- C18: the failing input.  The copy of the array built from `Reserve(4)` reports
capacity 4 while its block has no slot at all; after one `PushBack` on the
original, the copy reports capacity 4 over a block of one slot; copy assignment
and move assignment install the same array. -/
theorem copy_capacity_exceeds_block :
    SimpleVector.copy_ctor (SimpleVector.from_reserve (Reserve 4) : SimpleVector Nat) =
      .ok ⟨[], 0, 4⟩ ∧
    (SimpleVector.PushBack (SimpleVector.from_reserve (Reserve 4) : SimpleVector Nat)
      (.outside 1) >>= SimpleVector.copy_ctor) = .ok ⟨[1], 1, 4⟩ ∧
    SimpleVector.copy_assign (SimpleVector.empty : SimpleVector Nat) ⟨[1, 0, 0, 0], 1, 4⟩ =
      .ok (⟨[1], 1, 4⟩, ⟨[1, 0, 0, 0], 1, 4⟩) ∧
    SimpleVector.move_assign (fun _ => []) (SimpleVector.empty : SimpleVector Nat)
      ⟨[1, 0, 0, 0], 1, 4⟩ = .ok (⟨[1], 1, 4⟩, ⟨[1, 0, 0, 0], 1, 4⟩) ∧
    ¬ SimpleVector.WellFormed (⟨[1], 1, 4⟩ : SimpleVector Nat) :=
  ⟨by decide, by decide, by decide, by decide, by decide⟩

/-- C19: the scenario.  Reserve capacity 4, push one element, copy the array,
then `PushBack` on the copy: `Resize(2)` finds `2 ≤ capacity_ = 4` and writes
slot 1 of the copy's one-slot block. -/
theorem pushback_on_copy_overruns :
    (SimpleVector.PushBack (SimpleVector.from_reserve (Reserve 4) : SimpleVector Nat)
      (.outside 1) >>= SimpleVector.copy_ctor) = .ok ⟨[1], 1, 4⟩ ∧
    SimpleVector.Resize (⟨[1], 1, 4⟩ : SimpleVector Nat) 2 = .error .overrun ∧
    (SimpleVector.PushBack (SimpleVector.from_reserve (Reserve 4) : SimpleVector Nat)
      (.outside 1) >>= SimpleVector.copy_ctor >>=
        fun c => SimpleVector.PushBack c (.outside 2)) = .error .overrun :=
  ⟨by decide, by decide, by decide⟩

end ReservationHint

/-! ## The invariant `size ≤ capacity` -/

namespace SimpleVector

variable {α : Type}

theorem bind_ok_inv {β γ : Type} (x : Except Fault β) (f : β → Except Fault γ) (b : γ)
    (h : (x >>= f) = .ok b) : ∃ a, x = .ok a ∧ f a = .ok b := by
  cases x with
  | error e => cases h
  | ok a => exact ⟨a, rfl, h⟩

theorem Resize_fields [Inhabited α] (v v' : SimpleVector α) (m : Nat)
    (hR : Resize v m = .ok v') :
    v'.size_ = m ∧ (v'.capacity_ = v.capacity_ ∧ (m ≤ v.size_ ∨ m ≤ v.capacity_) ∨
      v'.capacity_ = max m (2 * v.size_)) := by
  unfold Resize at hR
  by_cases h1 : m = v.size_
  · rw [if_pos h1] at hR
    cases hR
    exact ⟨h1.symm, Or.inl ⟨rfl, Or.inl (by omega)⟩⟩
  by_cases h2 : m < v.size_
  · rw [if_neg h1, if_pos h2] at hR
    cases hR
    exact ⟨rfl, Or.inl ⟨rfl, Or.inl (by omega)⟩⟩
  by_cases h3 : m ≤ v.capacity_
  · rw [if_neg h1, if_neg h2, if_pos h3] at hR
    obtain ⟨b, _, hb⟩ := bind_ok_inv _ _ _ hR
    cases hb
    exact ⟨rfl, Or.inl ⟨rfl, Or.inr h3⟩⟩
  · rw [if_neg h1, if_neg h2, if_neg h3] at hR
    dsimp only at hR
    obtain ⟨a, _, ha⟩ := bind_ok_inv _ _ _ hR
    obtain ⟨b, _, hb⟩ := bind_ok_inv _ _ _ ha
    cases hb
    exact ⟨rfl, Or.inr rfl⟩

theorem write_length (block b : List α) (i : Nat) (x : α)
    (h : ArrayPtr.write block i x = .ok b) : b.length = block.length := by
  unfold ArrayPtr.write at h
  by_cases hi : i < block.length
  · rw [if_pos hi] at h
    cases h
    simp
  · rw [if_neg hi] at h
    cases h

theorem fill_default_length [Inhabited α] (trips : Nat) : ∀ (block b : List α) (it : Nat),
    fill_default block it trips = .ok b → b.length = block.length := by
  induction trips with
  | zero =>
    intro block b it h
    cases h
    rfl
  | succ k ih =>
    intro block b it h
    rw [fill_default] at h
    obtain ⟨b1, h1, h2⟩ := bind_ok_inv _ _ _ h
    rw [ih b1 b (it + 1) h2, write_length block b1 it default h1]

/-- `Resize_releases` tells the two kinds of return of `Resize` apart: when it is
false the array keeps its block (same length, same capacity); when it is true
the array has a new block of `max new_size (2 * size)` slots. -/
theorem Resize_releases_spec [Inhabited α] (v v' : SimpleVector α) (m : Nat)
    (hR : Resize v m = .ok v') :
    (Resize_releases v m = false →
      v'.elements_.length = v.elements_.length ∧ v'.capacity_ = v.capacity_) ∧
    (Resize_releases v m = true → v'.capacity_ = max m (2 * v.size_)) := by
  unfold Resize at hR
  by_cases h1 : m = v.size_
  · rw [if_pos h1] at hR
    cases hR
    exact ⟨fun _ => ⟨rfl, rfl⟩, fun h => by simp [Resize_releases, h1] at h⟩
  by_cases h2 : m < v.size_
  · rw [if_neg h1, if_pos h2] at hR
    cases hR
    exact ⟨fun _ => ⟨rfl, rfl⟩, fun h => by simp [Resize_releases, h2] at h⟩
  by_cases h3 : m ≤ v.capacity_
  · rw [if_neg h1, if_neg h2, if_pos h3] at hR
    obtain ⟨b, hb, hb'⟩ := bind_ok_inv _ _ _ hR
    cases hb'
    exact ⟨fun _ => ⟨fill_default_length _ _ _ _ hb, rfl⟩,
      fun h => by simp [Resize_releases, h3] at h⟩
  · rw [if_neg h1, if_neg h2, if_neg h3] at hR
    dsimp only at hR
    obtain ⟨a, _, ha⟩ := bind_ok_inv _ _ _ hR
    obtain ⟨b, _, hb⟩ := bind_ok_inv _ _ _ ha
    cases hb
    exact ⟨fun h => by simp [Resize_releases, h1, h2, h3] at h, fun _ => rfl⟩

theorem Resize_keeps_inv [Inhabited α] (v v' : SimpleVector α) (m : Nat)
    (h : v.size_ ≤ v.capacity_) (hR : Resize v m = .ok v') : v'.size_ ≤ v'.capacity_ := by
  obtain ⟨hs, hc | hc⟩ := Resize_fields v v' m hR
  · omega
  · rw [hs, hc]
    omega

theorem PushBack_fields [Inhabited α] (v v' : SimpleVector α) (x : Ref α)
    (hP : PushBack v x = .ok v') :
    ∃ v1, Resize v (v.size_ + 1) = .ok v1 ∧ v'.size_ = v1.size_ ∧
      v'.capacity_ = v1.capacity_ := by
  unfold PushBack at hP
  obtain ⟨v1, hR, h1⟩ := bind_ok_inv _ _ _ hP
  obtain ⟨y, _, h2⟩ := bind_ok_inv _ _ _ h1
  obtain ⟨b, _, hb⟩ := bind_ok_inv _ _ _ h2
  cases hb
  exact ⟨v1, hR, rfl, rfl⟩

theorem PushBackMove_fields [Inhabited α] (mv : α → α) (v v' : SimpleVector α) (x : Ref α)
    (hP : PushBackMove mv v x = .ok v') :
    ∃ v1, Resize v (v.size_ + 1) = .ok v1 ∧ v'.size_ = v1.size_ ∧
      v'.capacity_ = v1.capacity_ := by
  unfold PushBackMove at hP
  obtain ⟨v1, hR, h1⟩ := bind_ok_inv _ _ _ hP
  obtain ⟨y, _, h2⟩ := bind_ok_inv _ _ _ h1
  obtain ⟨b, _, hb⟩ := bind_ok_inv _ _ _ h2
  cases hb
  exact ⟨v1, hR, rfl, rfl⟩

theorem Insert_fields [Inhabited α] (v v' : SimpleVector α) (pos it : Nat) (x : Ref α)
    (hI : Insert v pos x = .ok (v', it)) :
    ∃ v1, Resize v (v.size_ + 1) = .ok v1 ∧ v'.size_ = v1.size_ ∧
      v'.capacity_ = v1.capacity_ := by
  unfold Insert at hI
  by_cases hp : ¬ pos ≤ v.size_
  · rw [if_pos hp] at hI
    cases hI
  rw [if_neg hp] at hI
  dsimp only at hI
  by_cases he : pos = v.size_
  · rw [if_pos he] at hI
    obtain ⟨w, hP, h1⟩ := bind_ok_inv _ _ _ hI
    obtain ⟨i, _, h2⟩ := bind_ok_inv _ _ _ h1
    obtain ⟨j, _, h3⟩ := bind_ok_inv _ _ _ h2
    cases h3
    exact PushBack_fields v v' x hP
  · rw [if_neg he] at hI
    obtain ⟨v1, hR, h1⟩ := bind_ok_inv _ _ _ hI
    obtain ⟨i, _, h2⟩ := bind_ok_inv _ _ _ h1
    obtain ⟨f, _, h3⟩ := bind_ok_inv _ _ _ h2
    obtain ⟨l, _, h4⟩ := bind_ok_inv _ _ _ h3
    obtain ⟨d, _, h5⟩ := bind_ok_inv _ _ _ h4
    obtain ⟨sh, _, h6⟩ := bind_ok_inv _ _ _ h5
    obtain ⟨y, _, h6'⟩ := bind_ok_inv _ _ _ h6
    obtain ⟨b, _, h7⟩ := bind_ok_inv _ _ _ h6'
    obtain ⟨r, _, h8⟩ := bind_ok_inv _ _ _ h7
    cases h8
    exact ⟨v1, hR, rfl, rfl⟩

theorem InsertMove_fields [Inhabited α] (mv : α → α) (v v' : SimpleVector α) (pos it : Nat)
    (x : Ref α) (hI : InsertMove mv v pos x = .ok (v', it)) :
    ∃ v1, Resize v (v.size_ + 1) = .ok v1 ∧ v'.size_ = v1.size_ ∧
      v'.capacity_ = v1.capacity_ := by
  unfold InsertMove at hI
  by_cases hp : ¬ pos ≤ v.size_
  · rw [if_pos hp] at hI
    cases hI
  rw [if_neg hp] at hI
  dsimp only at hI
  by_cases he : pos = v.size_
  · rw [if_pos he] at hI
    obtain ⟨w, hP, h1⟩ := bind_ok_inv _ _ _ hI
    obtain ⟨i, _, h2⟩ := bind_ok_inv _ _ _ h1
    obtain ⟨j, _, h3⟩ := bind_ok_inv _ _ _ h2
    cases h3
    exact PushBackMove_fields mv v v' x hP
  · rw [if_neg he] at hI
    obtain ⟨v1, hR, h1⟩ := bind_ok_inv _ _ _ hI
    obtain ⟨i, _, h2⟩ := bind_ok_inv _ _ _ h1
    obtain ⟨f, _, h3⟩ := bind_ok_inv _ _ _ h2
    obtain ⟨l, _, h4⟩ := bind_ok_inv _ _ _ h3
    obtain ⟨d, _, h5⟩ := bind_ok_inv _ _ _ h4
    obtain ⟨sh, _, h6⟩ := bind_ok_inv _ _ _ h5
    obtain ⟨y, _, h6'⟩ := bind_ok_inv _ _ _ h6
    obtain ⟨b, _, h7⟩ := bind_ok_inv _ _ _ h6'
    obtain ⟨r, _, h8⟩ := bind_ok_inv _ _ _ h7
    cases h8
    exact ⟨v1, hR, rfl, rfl⟩

theorem Erase_fields [Inhabited α] (mv : α → α) (v v' : SimpleVector α) (pos it : Nat)
    (hE : Erase mv v pos = .ok (v', it)) :
    ∃ b, Resize { v with elements_ := b } (v.size_ - 1) = .ok v' := by
  unfold Erase at hE
  by_cases hp : ¬ pos < v.size_
  · rw [if_pos hp] at hE
    cases hE
  rw [if_neg hp] at hE
  dsimp only at hE
  obtain ⟨b, _, h1⟩ := bind_ok_inv _ _ _ hE
  obtain ⟨v1, hR, h2⟩ := bind_ok_inv _ _ _ h1
  cases h2
  exact ⟨b, hR⟩

theorem Reserve_fields [Inhabited α] (v v' : SimpleVector α) (k : Nat)
    (hR : Reserve v k = .ok v') : v'.size_ = v.size_ ∧ v.capacity_ ≤ v'.capacity_ := by
  unfold Reserve at hR
  by_cases hk : k ≤ v.capacity_
  · rw [if_pos hk] at hR
    cases hR
    exact ⟨rfl, le_refl _⟩
  · rw [if_neg hk] at hR
    dsimp only at hR
    obtain ⟨b, _, hb⟩ := bind_ok_inv _ _ _ hR
    cases hb
    exact ⟨rfl, by simp; omega⟩

theorem copy_ctor_counters [Inhabited α] (v c : SimpleVector α) (h : copy_ctor v = .ok c) :
    c.size_ = v.size_ ∧ c.capacity_ = v.capacity_ := by
  unfold copy_ctor at h
  obtain ⟨b, _, hb⟩ := bind_ok_inv _ _ _ h
  cases hb
  exact ⟨rfl, rfl⟩

theorem Erase_returns [Inhabited α] (mv : α → α) (v : SimpleVector α) (pos : Nat)
    (h : WellFormed v) (hp : pos < v.size_) : ∃ r, Erase mv v pos = .ok r := by
  obtain ⟨hsc, hcl⟩ := h
  obtain ⟨b, hb, _, _⟩ := move_forward_loop_ok mv (v.size_ - (pos + 1)) v.elements_
    (pos + 1) pos rfl (by omega)
  unfold Erase
  rw [if_neg (by omega)]
  dsimp only
  rw [hb, ok_bind]
  unfold Resize
  dsimp only
  rw [if_neg (by omega), if_pos (by omega), ok_bind]
  exact ⟨_, rfl⟩

theorem Reserve_returns [Inhabited α] (v : SimpleVector α) (k : Nat) (h : WellFormed v) :
    ∃ v', Reserve v k = .ok v' := by
  obtain ⟨hsc, hcl⟩ := h
  unfold Reserve
  by_cases hk : k ≤ v.capacity_
  · rw [if_pos hk]
    exact ⟨v, rfl⟩
  · rw [if_neg hk]
    dsimp only
    rw [copy_elements_ok _ _ _ _ (by omega) (by simp [ArrayPtr.alloc]; omega), ok_bind]
    exact ⟨_, rfl⟩

theorem Insert_returns [Inhabited α] (mv : α → α) (v : SimpleVector α) (pos : Nat) (x : α)
    (h : WellFormed v) (hp : pos ≤ v.size_) (hs : pos < 2 ^ 31) :
    (∃ r, Insert v pos (.outside x) = .ok r) ∧
    (∃ r, InsertMove mv v pos (.outside x) = .ok r) := by
  have hi := narrow_int_small pos hs
  by_cases he : pos = v.size_
  · subst he
    obtain ⟨v', _, hI, hM⟩ := Insert_end mv v v.size_ x h hi
    exact ⟨⟨_, hI⟩, ⟨_, hM⟩⟩
  · obtain ⟨v', hI, _⟩ := Insert_at v pos pos x h (by omega) hi
    obtain ⟨w, hM, _⟩ := InsertMove_at mv v pos pos x h (by omega) hi
    exact ⟨⟨_, hI⟩, ⟨_, hM⟩⟩

end SimpleVector

section Invariant

open SimpleVector hiding Reserve

variable {α : Type}

/-- C17: `size ≤ capacity` holds for the result of every constructor (default,
count, count and value, literal, reservation hint, copy and move of an array
that satisfies it); every operation (both `PushBack` overloads, `PopBack`, both
`Insert` overloads, `Erase`, `Clear`, `Resize`, `Reserve`, `swap`, copy and move
assignment) that returns on an array satisfying it, whatever its argument
refers to, leaves arrays satisfying it; and on a well-formed array each of them
does return when called within its precondition (for `PushBack` and `Insert`,
with a value that is no element of the array; for `Insert`, at a position an
`int` can hold). -/
theorem size_le_capacity_invariant [Inhabited α] :
    ((empty : SimpleVector α).size_ ≤ (empty : SimpleVector α).capacity_ ∧
     (∀ n : Nat, ∃ v : SimpleVector α, from_size n = .ok v ∧ v.size_ ≤ v.capacity_) ∧
     (∀ (n : Nat) (x : α), ∃ v : SimpleVector α,
        from_size_value n x = .ok v ∧ v.size_ ≤ v.capacity_) ∧
     (∀ init : List α, ∃ v : SimpleVector α, from_init init = .ok v ∧ v.size_ ≤ v.capacity_) ∧
     (∀ c : Nat, (from_reserve (Reserve c) : SimpleVector α).size_ ≤
        (from_reserve (Reserve c) : SimpleVector α).capacity_) ∧
     (∀ s : SimpleVector α, s.size_ ≤ s.capacity_ → s.size_ ≤ s.elements_.length →
        ∃ c, copy_ctor s = .ok c ∧ c.size_ ≤ c.capacity_) ∧
     (∀ (left_behind : List α → List α) (s : SimpleVector α), s.size_ ≤ s.capacity_ →
        (move_ctor left_behind s).1.size_ ≤ (move_ctor left_behind s).1.capacity_ ∧
        (move_ctor left_behind s).2.size_ ≤ (move_ctor left_behind s).2.capacity_)) ∧
    (∀ v : SimpleVector α, v.size_ ≤ v.capacity_ →
      ((∀ x v', PushBack v x = .ok v' → v'.size_ ≤ v'.capacity_) ∧
       (∀ mv x v', PushBackMove mv v x = .ok v' → v'.size_ ≤ v'.capacity_)) ∧
      (∀ v', PopBack v = .ok v' → v'.size_ ≤ v'.capacity_) ∧
      (∀ pos x v' it, Insert v pos x = .ok (v', it) → v'.size_ ≤ v'.capacity_) ∧
      (∀ mv pos x v' it, InsertMove mv v pos x = .ok (v', it) → v'.size_ ≤ v'.capacity_) ∧
      (∀ mv pos v' it, Erase mv v pos = .ok (v', it) → v'.size_ ≤ v'.capacity_) ∧
      (Clear v).size_ ≤ (Clear v).capacity_ ∧
      (∀ m v', Resize v m = .ok v' → v'.size_ ≤ v'.capacity_) ∧
      (∀ k v', SimpleVector.Reserve v k = .ok v' → v'.size_ ≤ v'.capacity_) ∧
      (∀ w : SimpleVector α, w.size_ ≤ w.capacity_ →
        (swap v w).1.size_ ≤ (swap v w).1.capacity_ ∧
        (swap v w).2.size_ ≤ (swap v w).2.capacity_) ∧
      (∀ this r, copy_assign this v = .ok r →
        r.1.size_ ≤ r.1.capacity_ ∧ r.2.size_ ≤ r.2.capacity_) ∧
      (∀ left_behind this r, move_assign left_behind this v = .ok r →
        r.1.size_ ≤ r.1.capacity_ ∧ r.2.size_ ≤ r.2.capacity_)) ∧
    (∀ v : SimpleVector α, WellFormed v →
      (∀ x : α, (∃ v', PushBack v (.outside x) = .ok v') ∧
        ∀ mv, ∃ v', PushBackMove mv v (.outside x) = .ok v') ∧
      (v.size_ ≠ 0 → ∃ v', PopBack v = .ok v') ∧
      (∀ (pos : Nat) (x : α), pos ≤ v.size_ → pos < 2 ^ 31 →
        ∃ r, Insert v pos (.outside x) = .ok r) ∧
      (∀ (mv : α → α) (pos : Nat) (x : α), pos ≤ v.size_ → pos < 2 ^ 31 →
        ∃ r, InsertMove mv v pos (.outside x) = .ok r) ∧
      (∀ mv pos, pos < v.size_ → ∃ r, Erase mv v pos = .ok r) ∧
      (∀ m, ∃ v', Resize v m = .ok v') ∧
      (∀ k, ∃ v', SimpleVector.Reserve v k = .ok v') ∧
      (∀ this, ∃ r, copy_assign this v = .ok r) ∧
      (∀ left_behind this, ∃ r, move_assign left_behind this v = .ok r)) := by
  refine ⟨⟨le_refl _, fun n => ⟨_, from_size_ok n, le_refl _⟩,
    fun n x => ⟨_, from_size_value_ok n x, le_refl _⟩,
    fun init => ⟨_, from_init_ok init, le_refl _⟩, fun c => Nat.zero_le _,
    fun s hs hl => ⟨_, copy_ctor_ok s hl, hs⟩, fun _ s hs => ⟨hs, le_refl _⟩⟩, ?_, ?_⟩
  · intro v hv
    refine ⟨?_, ?_, ?_, ?_, ?_, Nat.zero_le _, ?_, ?_, ?_, ?_, ?_⟩
    · constructor
      · intro x v' hP
        obtain ⟨v1, hR, e1, e2⟩ := PushBack_fields v v' x hP
        rw [e1, e2]
        exact Resize_keeps_inv v v1 _ hv hR
      · intro mv x v' hP
        obtain ⟨v1, hR, e1, e2⟩ := PushBackMove_fields mv v v' x hP
        rw [e1, e2]
        exact Resize_keeps_inv v v1 _ hv hR
    · intro v' hP
      unfold PopBack at hP
      by_cases h0 : v.size_ ≠ 0
      · rw [if_pos h0] at hP
        cases hP
        show v.size_ - 1 ≤ v.capacity_
        omega
      · rw [if_neg h0] at hP
        cases hP
    · intro pos x v' it hI
      obtain ⟨v1, hR, e1, e2⟩ := Insert_fields v v' pos it x hI
      rw [e1, e2]
      exact Resize_keeps_inv v v1 _ hv hR
    · intro mv pos x v' it hI
      obtain ⟨v1, hR, e1, e2⟩ := InsertMove_fields mv v v' pos it x hI
      rw [e1, e2]
      exact Resize_keeps_inv v v1 _ hv hR
    · intro mv pos v' it hE
      obtain ⟨b, hR⟩ := Erase_fields mv v v' pos it hE
      exact Resize_keeps_inv { v with elements_ := b } v' _ hv hR
    · intro m v' hR
      exact Resize_keeps_inv v v' m hv hR
    · intro k v' hR
      obtain ⟨e1, e2⟩ := Reserve_fields v v' k hR
      omega
    · intro w hw
      exact ⟨hw, hv⟩
    · intro this r hr
      unfold copy_assign at hr
      obtain ⟨c, hc, h1⟩ := bind_ok_inv _ _ _ hr
      obtain ⟨e1, e2⟩ := copy_ctor_counters v c hc
      cases h1
      exact ⟨by show c.size_ ≤ c.capacity_; omega, hv⟩
    · intro left_behind this r hr
      unfold move_assign at hr
      obtain ⟨c, hc, h1⟩ := bind_ok_inv _ _ _ hr
      obtain ⟨e1, e2⟩ := copy_ctor_counters v c hc
      cases h1
      exact ⟨by show c.size_ ≤ c.capacity_; omega, hv⟩
  · intro v hwf
    have hlen : v.size_ ≤ v.elements_.length := by have := hwf.1; have := hwf.2; omega
    refine ⟨?_, ?_, ?_, ?_, ?_, ?_, ?_, ?_, ?_⟩
    · intro x
      obtain ⟨v', hP, _⟩ := PushBack_ok v x hwf
      exact ⟨⟨v', hP⟩, fun mv => ⟨v', (PushBackMove_outside mv v x).trans hP⟩⟩
    · intro h0
      exact ⟨_, by rw [PopBack, if_pos h0]⟩
    · intro pos x hp hs
      exact (Insert_returns id v pos x hwf hp hs).1
    · intro mv pos x hp hs
      exact (Insert_returns mv v pos x hwf hp hs).2
    · intro mv pos hp
      exact Erase_returns mv v pos hwf hp
    · intro m
      obtain ⟨v', hR, _⟩ := Resize_ok v m hwf
      exact ⟨v', hR⟩
    · intro k
      exact Reserve_returns v k hwf
    · intro this
      exact ⟨_, by rw [copy_assign, copy_ctor_ok v hlen, ok_bind]⟩
    · intro left_behind this
      exact ⟨_, by rw [move_assign, copy_ctor_ok v hlen, ok_bind]⟩

/-- C17, on the array `[1, 2]` with capacity 3: `PushBack`, `Insert`, `Erase`
and `Resize(7)` return arrays with `size ≤ capacity`. -/
theorem size_le_capacity_invariant_witness :
    (∃ v' : SimpleVector Nat, PushBack ⟨[1, 2, 0], 2, 3⟩ (.outside 5) = .ok v' ∧
      v'.size_ ≤ v'.capacity_) ∧
    (∃ v' : SimpleVector Nat, Resize ⟨[1, 2, 0], 2, 3⟩ 7 = .ok v' ∧
      v'.size_ ≤ v'.capacity_) ∧
    (∃ c : SimpleVector Nat, copy_ctor ⟨[1, 2, 0], 2, 3⟩ = .ok c ∧ c.size_ ≤ c.capacity_) := by
  have h := @size_le_capacity_invariant Nat _
  have hv : (2 : Nat) ≤ 3 := by decide
  refine ⟨?_, ?_, h.1.2.2.2.2.2.1 ⟨[1, 2, 0], 2, 3⟩ hv (by decide)⟩
  · obtain ⟨v', hP⟩ := ((h.2.2 ⟨[1, 2, 0], 2, 3⟩ (by decide)).1 5).1
    exact ⟨v', hP, (h.2.1 ⟨[1, 2, 0], 2, 3⟩ hv).1.1 (.outside 5) v' hP⟩
  · obtain ⟨v', hR⟩ := (h.2.2 ⟨[1, 2, 0], 2, 3⟩ (by decide)).2.2.2.2.2.1 7
    exact ⟨v', hR, (h.2.1 ⟨[1, 2, 0], 2, 3⟩ hv).2.2.2.2.2.2.1 7 v' hR⟩

end Invariant
